import Mathlib

/-! Shallow embedding of the synchronization and integrity-verification core
of the workshop manager program (src/main.rs): the metadata store, file
verification, ingest of transferred files, item and collection sync, and
removal with the orphan sweep.  External collaborators (HTTP resolution,
the SteamCMD transfer agent, the real filesystem) are modelled as explicit
data passed to the operations.  All definitions are computable so that
concrete runs evaluate. -/

/-- Relative paths are modelled as lists of components.  The Rust code joins
components with the platform separator; component lists keep joining
injective and need no separator reasoning. -/
abbrev RelPath := List String

/-- Lookup in an association list (models HashMap get and filesystem path
lookup). -/
def alookup {κ α : Type} [DecidableEq κ] : List (κ × α) → κ → Option α
  | [], _ => none
  | e :: rest, k => if e.1 = k then some e.2 else alookup rest k

/-- Remove every binding of a key (models HashMap remove and fs remove_file). -/
def aerase {κ α : Type} [DecidableEq κ] : List (κ × α) → κ → List (κ × α)
  | [], _ => []
  | e :: rest, k => if e.1 = k then aerase rest k else e :: aerase rest k

/-- Insert or replace the binding of a key (models HashMap insert and the
entry-or-insert-then-mutate pattern of download_item). -/
def ainsert {κ α : Type} [DecidableEq κ] (l : List (κ × α)) (k : κ) (v : α) :
    List (κ × α) :=
  (k, v) :: aerase l k

/-- Update the value bound to a key in place (models HashMap get_mut). -/
def aadjust {κ α : Type} [DecidableEq κ] (l : List (κ × α)) (k : κ) (f : α → α) :
    List (κ × α) :=
  l.map (fun e => if e.1 = k then (e.1, f e.2) else e)

/-- FileInfo (main.rs 64-68): a tracked file, with cache-root-relative path
and content digest; an empty digest means existence-only. -/
structure FileInfo where
  path : RelPath
  hash : String
deriving DecidableEq, Repr

/-- WorkshopMetadata (main.rs 70-78): the tracked record of one item.  The
serde defaults make files and collection_ids empty when absent. -/
structure WorkshopMetadata where
  title : String
  changelog_id : String
  files : List FileInfo
  collection_ids : List String
deriving DecidableEq, Repr

/-- WorkshopItem (main.rs 80-84): an id resolved as a single item, with its
display title and changelog (version) marker. -/
structure WorkshopItem where
  id : String
  title : String
  changelog_id : String
deriving DecidableEq, Repr

/-- WorkshopCollection (main.rs 86-90): an id resolved as a collection with
its ordered member ids. -/
structure WorkshopCollection where
  id : String
  title : String
  item_ids : List String
deriving DecidableEq, Repr

/-- ParseResult (main.rs 92-95): the tagged outcome of resolving an id. -/
inductive ParseResult where
  | item (it : WorkshopItem)
  | collection (c : WorkshopCollection)
deriving DecidableEq, Repr

/-- Error taxonomy of the fallible operations that the claims mention. -/
inductive WmError where
  | ioError
  | corruptStore
  | resolutionError
deriving DecidableEq, Repr

/-- The metadata store contents: item id mapped to its tracked record
(WorkshopManager.metadata, a HashMap in the code). -/
abbrev Store := List (String × WorkshopMetadata)

/-- A filesystem entry under the cache root: a regular file, identified by
its content digest (the hasher is deterministic and the code only ever
compares digests, so the digest stands for the content), or a directory. -/
inductive FsEntry where
  | file (digest : String)
  | dir
deriving DecidableEq, Repr

/-- The cache root (paths.local_files), as a finite map from cache-root
relative path to entry. -/
abbrev FS := List (RelPath × FsEntry)

/-- Engine state: the in-memory metadata map, the last persisted snapshot of
it (the contents of metadata.json as maintained by save_metadata), the
cache-root filesystem, and a count of transfer-agent invocations
(run_steamcmd calls, main.rs 400-428). -/
structure MgrState where
  metadata : Store
  persisted : Store
  fs : FS
  transfers : Nat
deriving DecidableEq, Repr

/-- Configuration relevant to ingest: the optional compiled whitelist
(None when config.whitelist is empty, main.rs 150-162), abstracted to a
predicate on paths since glob matching is an external library, and the
local_files path used by the strip_prefix in is_allowed. -/
structure Cfg where
  whitelistMatch : Option (RelPath → Bool)
  localFiles : RelPath

/-- The external transfer-agent environment for one item: whether SteamCMD
reports success, and the content directory it produced (None when the
expected output location does not exist).  A source directory is a list of
named entries. -/
inductive SrcTree where
  | file (digest : String)
  | dir (entries : List (String × SrcTree))

/-- Interior entries of a source directory. -/
abbrev Ents := List (String × SrcTree)

structure Env where
  steamcmdOk : Bool
  sourceTree : Option Ents

/-- calculate_file_hash (main.rs 365-383): streams a file and returns its
digest.  Opening or reading a missing path fails, and reading a directory
fails (EISDIR), both surfacing as an I/O error. -/
def calculate_file_hash (fs : FS) (p : RelPath) : Except WmError String :=
  match alookup fs p with
  | some (.file d) => .ok d
  | some .dir => .error .ioError
  | none => .error .ioError

/-- verify_file (main.rs 385-398): absent at cache root - false; empty
recorded digest - presence suffices; otherwise recompute and compare. -/
def verify_file (fs : FS) (fi : FileInfo) : Except WmError Bool :=
  match alookup fs fi.path with
  | none => .ok false
  | some _ =>
    if fi.hash = "" then .ok true
    else
      match calculate_file_hash fs fi.path with
      | .error e => .error e
      | .ok h => .ok (decide (h = fi.hash))

/-- The verification loop of quick_update (main.rs 311-317): verify each
listed file in order, short-circuiting at the first failure or error. -/
def verifyAllFiles (fs : FS) : List FileInfo → Except WmError Bool
  | [] => .ok true
  | fi :: rest =>
    match verify_file fs fi with
    | .error e => .error e
    | .ok false => .ok false
    | .ok true => verifyAllFiles fs rest

/-- The collection-membership recording used by quick_update (319-326) and
download_item (706-711): append the collection id unless already present. -/
def pushCollectionId (m : WorkshopMetadata) (c : String) : WorkshopMetadata :=
  if c ∈ m.collection_ids then m
  else { m with collection_ids := m.collection_ids ++ [c] }

/-- quick_update (main.rs 297-333): the satisfied-skip decision.  Returns
false (leaving the state untouched) when there is no record, the changelog
marker changed, or a listed file fails verification; on the skip path it
records the supplied collection membership and persists.  The
update_workshop_maps call (335-363) writes a derived projection outside the
store and is not modelled. -/
def quick_update (st : MgrState) (item : WorkshopItem) (collection_id : Option String) :
    MgrState × Except WmError Bool :=
  match alookup st.metadata item.id with
  | none => (st, .ok false)
  | some m =>
    if m.changelog_id ≠ item.changelog_id then (st, .ok false)
    else
      match verifyAllFiles st.fs m.files with
      | .error e => (st, .error e)
      | .ok false => (st, .ok false)
      | .ok true =>
        let md :=
          match collection_id with
          | some c => aadjust st.metadata item.id (fun mm => pushCollectionId mm c)
          | none => st.metadata
        ({ st with metadata := md, persisted := md }, .ok true)

/-- load_metadata (main.rs 213-224): a read failure (in particular a missing
metadata.json) yields the empty map without error; a file that reads but
does not parse as a valid mapping is a hard error (corrupt store).  The
on-disk bytes are the optional string, and the serde_json parse is the
supplied parse function. -/
def load_metadata (disk : Option String) (parse : String → Option Store) :
    Except WmError Store :=
  match disk with
  | some data =>
    match parse data with
    | some md => .ok md
    | none => .error .corruptStore
  | none => .ok []

/-- Primitive file operations a persist routine may perform on the metadata
location: a direct write of the target file, a write of a side temp file,
or an atomic rename of the temp file over the target. -/
inductive FileOp where
  | writeTarget (data : String)
  | writeTemp (data : String)
  | renameTempOverTarget
deriving DecidableEq, Repr

/-- save_metadata (main.rs 226-231) performs exactly one direct fs::write of
the serialized mapping onto metadata.json: no temp file, no rename. -/
def save_metadata_ops (serialized : String) : List FileOp :=
  [.writeTarget serialized]

/-- Modelled from the spec: the write-to-temp-then-rename persist pattern
the spec prescribes for save (spec 4.2); not present in the source. -/
def atomic_replace_ops (serialized : String) : List FileOp :=
  [.writeTemp serialized, .renameTempOverTarget]

/-- The sequence of contents the target file passes through during a direct
write: truncation to empty, then every prefix of the data as it streams. -/
def writeStates (data : String) : List String :=
  "" :: (List.range data.length).map (fun k => data.take (k + 1))

/-- All contents of the target file observable at any interruption point
while executing the given file operations, starting from the old target
content and an initially irrelevant temp content. -/
def observableContents (target temp : String) : List FileOp → List String
  | [] => [target]
  | .writeTarget d :: rest => writeStates d ++ observableContents d temp rest
  | .writeTemp d :: rest => target :: observableContents target d rest
  | .renameTempOverTarget :: rest => target :: observableContents temp temp rest

/-- The final target content after the operations run to completion. -/
def finalContent (target temp : String) : List FileOp → String
  | [] => target
  | .writeTarget d :: rest => finalContent d temp rest
  | .writeTemp d :: rest => finalContent target d rest
  | .renameTempOverTarget :: rest => finalContent temp temp rest

/-- is_allowed (main.rs 188-198): with no whitelist configured every path is
rejected; otherwise the path, with the local_files prefix stripped when it
is a prefix, is matched against the glob set. -/
def is_allowed (cfg : Cfg) (p : RelPath) : Bool :=
  match cfg.whitelistMatch with
  | none => false
  | some m => m (if cfg.localFiles.isPrefixOf p then p.drop cfg.localFiles.length else p)

/-- Weight of a source directory: its number of tree nodes.  Used as the
termination measure of the explicit work stack. -/
def entsW : Ents → Nat
  | [] => 0
  | (_, .file _) :: rest => 1 + entsW rest
  | (_, .dir es) :: rest => 1 + entsW es + entsW rest

/-- Total weight of a traversal stack. -/
def stackW : List (RelPath × Ents) → Nat
  | [] => 0
  | (_, es) :: stack => entsW es + stackW stack

/-- All regular files of a source directory, as relative path and digest. -/
def entsFiles : Ents → List (RelPath × String)
  | [] => []
  | (n, .file d) :: rest => ([n], d) :: entsFiles rest
  | (n, .dir es) :: rest =>
    (entsFiles es).map (fun pd => (n :: pd.1, pd.2)) ++ entsFiles rest

/-- move_directory (main.rs 441-486): iterative traversal with an explicit
work stack (pushed directories are popped last-in first-out, matching Vec
push and pop); each regular file at relative path p is skipped when
is_allowed rejects p (left at its source location), and otherwise hashed,
copied to the destination, deleted from the source, and appended to the
result list. -/
def moveLoop (cfg : Cfg) : List (RelPath × Ents) → List FileInfo → List FileInfo
  | [], acc => acc
  | (_, []) :: stack, acc => moveLoop cfg stack acc
  | (rd, (n, .file d) :: rest) :: stack, acc =>
    moveLoop cfg ((rd, rest) :: stack)
      (if is_allowed cfg (rd ++ [n]) then acc ++ [⟨rd ++ [n], d⟩] else acc)
  | (rd, (n, .dir es) :: rest) :: stack, acc =>
    moveLoop cfg ((rd, rest) :: (rd ++ [n], es) :: stack) acc
termination_by stack _ => (stackW stack, stack.length)
decreasing_by
  all_goals simp [stackW, entsW]
  · exact Prod.Lex.right _ (Nat.lt_succ_self _)
  · exact Prod.Lex.left _ _ (by omega)
  · exact Prod.Lex.left _ _ (by omega)

/-- move_and_track_files (main.rs 430-439): a missing source directory means
nothing to ingest; otherwise run the traversal from the source root. -/
def move_and_track_files (cfg : Cfg) (src : Option Ents) : List FileInfo :=
  match src with
  | none => []
  | some ents => moveLoop cfg [([], ents)] []

/-- Effect of the ingest on the cache root: each accepted file is copied to
its relative path (fs::copy overwrites an existing file). -/
def applyIngest (fs : FS) (files : List FileInfo) : FS :=
  files.foldl (fun acc fi => ainsert acc fi.path (.file fi.hash)) fs

/-- download_item (main.rs 646-717): unless forced, try the satisfied-skip
first; otherwise invoke the transfer agent (counted in transfers), fail when
it reports no success or its output directory is missing, ingest its output,
fail when the ingest yields zero files, and otherwise replace or create the
record (new title, changelog marker and file list, plus the collection
membership when supplied) and persist. -/
def download_item (cfg : Cfg) (env : Env) (st : MgrState) (item : WorkshopItem)
    (collection_id : Option String) (force : Bool) : MgrState × Except WmError Bool :=
  let quick : MgrState × Except WmError Bool :=
    if force then (st, .ok false) else quick_update st item collection_id
  match quick with
  | (st1, .error e) => (st1, .error e)
  | (st1, .ok true) => (st1, .ok true)
  | (st1, .ok false) =>
    let st2 := { st1 with transfers := st1.transfers + 1 }
    if !env.steamcmdOk then (st2, .ok false)
    else
      match env.sourceTree with
      | none => (st2, .ok false)
      | some ents =>
        let files := move_and_track_files cfg (some ents)
        let st3 := { st2 with fs := applyIngest st2.fs files }
        if files.isEmpty then (st3, .ok false)
        else
          let prev : WorkshopMetadata :=
            match alookup st3.metadata item.id with
            | some m => m
            | none =>
              { title := item.title, changelog_id := item.changelog_id
                files := [], collection_ids := [] }
          let entry1 :=
            { prev with title := item.title, changelog_id := item.changelog_id
                        files := files }
          let entry2 :=
            match collection_id with
            | some c => pushCollectionId entry1 c
            | none => entry1
          let md := ainsert st3.metadata item.id entry2
          ({ st3 with metadata := md, persisted := md }, .ok true)

/-- The member loop of download_collection (main.rs 719-743): resolve each
member id in order; a resolution error aborts the loop; a member resolving
as a collection is ignored; a member resolving as an item runs the item
flow tagged with the collection id, its boolean result being discarded and
a hard error aborting the loop. -/
def dcLoop (cfg : Cfg) (R : String → Except WmError ParseResult) (E : String → Env)
    (collectionId : String) (force : Bool) :
    MgrState → List String → MgrState × Except WmError Unit
  | st, [] => (st, .ok ())
  | st, id :: rest =>
    match R id with
    | .error e => (st, .error e)
    | .ok (.collection _) => dcLoop cfg R E collectionId force st rest
    | .ok (.item it) =>
      match download_item cfg (E id) st it (some collectionId) force with
      | (st', .error e) => (st', .error e)
      | (st', .ok _) => dcLoop cfg R E collectionId force st' rest

/-- download_collection (main.rs 719-743). -/
def download_collection (cfg : Cfg) (R : String → Except WmError ParseResult)
    (E : String → Env) (st : MgrState) (c : WorkshopCollection) (force : Bool) :
    MgrState × Except WmError Unit :=
  dcLoop cfg R E c.id force st c.item_ids

/-- Deletion of one cache entry (main.rs 513-518): a directory is removed
recursively (remove_dir_all erases the path and everything below it), a
regular file exactly. -/
def deleteFsEntry (fs : FS) (p : RelPath) : FsEntry → FS
  | .dir => fs.filter (fun e => !(p.isPrefixOf e.1))
  | .file _ => aerase fs p

/-- The per-file loop of remove_item (main.rs 498-522), with a fault oracle
flt injecting a filesystem error into the delete of a given path (modelling
remove_file or remove_dir_all failing).  A missing file is skipped; a file
with nonempty recorded digest is re-verified and skipped with a diagnostic
on mismatch (an I/O error during that verification, e.g. the path now being
a directory, aborts the loop); otherwise the entry is deleted and counted. -/
def removeFilesLoop (flt : RelPath → Bool) :
    MgrState → List FileInfo → Nat → MgrState × Except WmError Nat
  | st, [], n => (st, .ok n)
  | st, fi :: rest, n =>
    match alookup st.fs fi.path with
    | none => removeFilesLoop flt st rest n
    | some entry =>
      match (if fi.hash = "" then Except.ok true else verify_file st.fs fi) with
      | .error e => (st, .error e)
      | .ok false => removeFilesLoop flt st rest n
      | .ok true =>
        if flt fi.path then (st, .error .ioError)
        else removeFilesLoop flt { st with fs := deleteFsEntry st.fs fi.path entry } rest (n + 1)

/-- remove_item (main.rs 488-525): absent id is a no-op returning false;
otherwise the record is dropped from the map and the map persisted first,
and only then are its files deleted one by one. -/
def remove_item (flt : RelPath → Bool) (st : MgrState) (workshop_id : String) :
    MgrState × Except WmError Bool :=
  match alookup st.metadata workshop_id with
  | none => (st, .ok false)
  | some m =>
    let md := aerase st.metadata workshop_id
    match removeFilesLoop flt { st with metadata := md, persisted := md } m.files 0 with
    | (st', .error e) => (st', .error e)
    | (st', .ok n) => (st', .ok (decide (0 < n)))

/-- The orphan scan of cmd_remove (main.rs 831-836): the ids of the items
whose collection_ids list has length one and whose single element is the
removed id. -/
def orphanTargets (md : Store) (workshop_id : String) : List String :=
  (md.filter (fun e =>
    e.2.collection_ids.length == 1 && e.2.collection_ids.getD 0 "" == workshop_id)).map
    Prod.fst

/-- The orphan removal loop of cmd_remove (main.rs 838-840): remove each
collected id, propagating errors. -/
def sweepLoop (flt : RelPath → Bool) :
    MgrState → List String → MgrState × Except WmError Unit
  | st, [] => (st, .ok ())
  | st, id :: rest =>
    match remove_item flt st id with
    | (st', .error e) => (st', .error e)
    | (st', .ok _) => sweepLoop flt st' rest

/-- cmd_remove (main.rs 821-843): remove the id when tracked, then scan the
remaining records and remove every orphan of that id. -/
def cmd_remove (flt : RelPath → Bool) (st : MgrState) (workshop_id : String) :
    MgrState × Except WmError Unit :=
  let step1 : MgrState × Except WmError Bool :=
    if (alookup st.metadata workshop_id).isSome then remove_item flt st workshop_id
    else (st, .ok false)
  match step1 with
  | (st1, .error e) => (st1, .error e)
  | (st1, .ok _) => sweepLoop flt st1 (orphanTargets st1.metadata workshop_id)

/-- The fault-free filesystem: no delete ever fails. -/
def noFault : RelPath → Bool := fun _ => false

/-- Pairwise non-overlap of two relative paths: neither is a prefix of the
other (distinct regular files produced by one ingest always satisfy this,
since a path cannot be both a file and a directory). -/
def noOverlap (p q : RelPath) : Bool :=
  !(p.isPrefixOf q) && !(q.isPrefixOf p)

/-- A file list is independent when its paths pairwise do not overlap; this
is the record validity invariant (each relativePath identifies one file). -/
def independentB : List RelPath → Bool
  | [] => true
  | p :: rest => rest.all (fun q => noOverlap p q) && independentB rest

/-- Characterization of the ingest result for one source directory: the
regular files whose full relative path the inclusion policy accepts, with
their digests. -/
def allowedFiles (cfg : Cfg) (rd : RelPath) (es : Ents) : List FileInfo :=
  ((entsFiles es).filter (fun pd => is_allowed cfg (rd ++ pd.1))).map
    (fun pd => ⟨rd ++ pd.1, pd.2⟩)

/-- Characterization of the ingest result for a whole traversal stack. -/
def stackFiles (cfg : Cfg) : List (RelPath × Ents) → List FileInfo
  | [] => []
  | fr :: stack => allowedFiles cfg fr.1 fr.2 ++ stackFiles cfg stack

/-- The store update performed on the satisfied-skip path of quick_update
(main.rs 319-326): record the supplied collection membership, if any. -/
def skipStore (md : Store) (id : String) (cid : Option String) : Store :=
  match cid with
  | some c => aadjust md id (fun mm => pushCollectionId mm c)
  | none => md

/-- The record produced by the satisfied-skip path for the synced item:
the old record with the membership tag recorded, if one was supplied. -/
def skipRecord (m : WorkshopMetadata) (cid : Option String) : WorkshopMetadata :=
  match cid with
  | some c => pushCollectionId m c
  | none => m

/-! Association-list lemmas. -/

theorem alookup_aerase {κ α : Type} [DecidableEq κ] (l : List (κ × α)) (k k' : κ) :
    alookup (aerase l k) k' = if k' = k then none else alookup l k' := by
  induction l with
  | nil => simp [aerase, alookup]
  | cons e rest ih =>
    simp only [aerase, alookup]
    by_cases h1 : e.1 = k
    · simp only [if_pos h1, ih]
      by_cases h2 : k' = k
      · simp [h2]
      · have h3 : ¬ e.1 = k' := by
          rw [h1]; exact fun hh => h2 hh.symm
        simp [alookup, h2, h3]
    · simp only [if_neg h1, alookup, ih]
      by_cases h2 : e.1 = k'
      · have hk : ¬ k' = k := fun hh => h1 (h2.trans hh)
        simp [h2, hk]
      · by_cases h3 : k' = k <;> simp [h1, h2, h3]

theorem alookup_ainsert {κ α : Type} [DecidableEq κ] (l : List (κ × α)) (k k' : κ) (v : α) :
    alookup (ainsert l k v) k' = if k' = k then some v else alookup l k' := by
  simp only [ainsert, alookup, alookup_aerase]
  by_cases h : k' = k
  · simp [h]
  · have h2 : ¬ k = k' := fun hh => h hh.symm
    simp [h, h2]

theorem alookup_aadjust {κ α : Type} [DecidableEq κ] (l : List (κ × α)) (k k' : κ)
    (f : α → α) :
    alookup (aadjust l k f) k' =
      if k' = k then (alookup l k').map f else alookup l k' := by
  induction l with
  | nil => simp [aadjust, alookup]
  | cons e rest ih =>
    simp only [aadjust, List.map_cons] at *
    by_cases h1 : e.1 = k
    · simp only [if_pos h1, alookup]
      by_cases h2 : e.1 = k'
      · have hk : k' = k := h2.symm.trans h1
        simp [h2, hk]
      · simp only [if_neg h2, ih]
    · simp only [if_neg h1, alookup]
      by_cases h2 : e.1 = k'
      · have hk : ¬ k' = k := fun hh => h1 (h2.trans hh)
        simp [h2, hk]
      · simp [h2, ih]

theorem alookup_filterKey {κ α : Type} [DecidableEq κ] (l : List (κ × α)) (q : κ → Bool)
    (k : κ) :
    alookup (l.filter (fun e => q e.1)) k = if q k then alookup l k else none := by
  induction l with
  | nil => simp [alookup]
  | cons e rest ih =>
    by_cases h1 : e.1 = k
    · subst h1
      by_cases h2 : q e.1 = true <;> simp [List.filter_cons, alookup, h2, ih]
    · by_cases h2 : q e.1 = true <;> simp [List.filter_cons, alookup, h1, h2, ih]

/-! Claim C6: load on a missing store file versus a malformed one. -/

/-- C6: load_metadata returns the empty mapping (not an error) when the
persisted file is absent, and fails with the corrupt-store error when the
file exists but its contents do not parse as a valid mapping
(main.rs 213-224). -/
theorem C6_load_missing_empty_malformed_corrupt
    (parse : String → Option Store) (data : String) :
    load_metadata none parse = .ok [] ∧
    (parse data = none → load_metadata (some data) parse = .error .corruptStore) := by
  constructor
  · rfl
  · intro h; simp [load_metadata, h]

/-- Witness for C6 at a concrete parse function and file content. -/
theorem C6_load_missing_empty_malformed_corrupt_witness :
    load_metadata none (fun _ => none) = .ok [] ∧
    load_metadata (some "x") (fun _ => none) = .error .corruptStore :=
  ⟨(C6_load_missing_empty_malformed_corrupt (fun _ => none) "x").1,
   (C6_load_missing_empty_malformed_corrupt (fun _ => none) "x").2 rfl⟩

/-! Claim C2: atomicity of save_metadata. -/

/-- C2 counterexample: save_metadata is one direct write of the target file
(main.rs 226-231, tokio fs::write), not a temp-then-rename; starting from
old content OLD and writing NEW, the empty truncated file is an observable
intermediate state distinct from both the old and the new content, so an
interleaved failure can expose a half-written store to a subsequent load.
By contrast the temp-then-rename sequence the spec prescribes only ever
exposes the old or the new content.  This refutes the claim that save
replaces the persisted location atomically. -/
theorem C2_direct_write_counterexample :
    "" ∈ observableContents "OLD" "" (save_metadata_ops "NEW") ∧
    "" ≠ "OLD" ∧ "" ≠ "NEW" ∧
    observableContents "OLD" "" (atomic_replace_ops "NEW") = ["OLD", "OLD", "NEW"] := by
  refine ⟨?_, by decide, by decide, rfl⟩
  simp [save_metadata_ops, observableContents, writeStates]

/-- C2 amended: save serializes the entire mapping and overwrites the
persisted location with a single direct write of the target file; the
completed write holds exactly the serialized data, but the truncated empty
state is observable under an interleaved failure, and a subsequent load of
such a half-written (unparsable) state fails as corrupt rather than
returning the previous mapping. -/
theorem C2_save_direct_write (old data : String) (parse : String → Option Store) :
    save_metadata_ops data = [FileOp.writeTarget data] ∧
    finalContent old "" (save_metadata_ops data) = data ∧
    "" ∈ observableContents old "" (save_metadata_ops data) ∧
    (parse "" = none → load_metadata (some "") parse = .error .corruptStore) := by
  refine ⟨rfl, rfl, ?_, ?_⟩
  · simp [save_metadata_ops, observableContents, writeStates]
  · intro h; simp [load_metadata, h]

/-- Witness for C2 amended at concrete contents and parse function. -/
theorem C2_save_direct_write_witness :
    "" ∈ observableContents "OLD" "" (save_metadata_ops "NEW") ∧
    load_metadata (some "") (fun _ => none) = .error .corruptStore :=
  ⟨(C2_save_direct_write "OLD" "NEW" (fun _ => none)).2.2.1,
   (C2_save_direct_write "OLD" "NEW" (fun _ => none)).2.2.2 rfl⟩

/-! Claim C8: verification semantics. -/

/-- C8: verify-file semantics and the short-circuiting verification loop
(main.rs 385-398 and 311-317): a file absent at the cache root verifies
false; presence alone suffices when the recorded digest is empty; otherwise
the recomputed digest is compared to the recorded one; one failing file
forces the loop result false whatever files follow it; and the loop returns
true exactly when every listed file verifies true.  The functions are pure
reads: they consume the filesystem and return only a result, so no write is
expressible. -/
theorem C8_verify_characterization :
    (∀ (fs : FS) (fi : FileInfo), alookup fs fi.path = none →
      verify_file fs fi = .ok false) ∧
    (∀ (fs : FS) (fi : FileInfo) (e : FsEntry), alookup fs fi.path = some e →
      fi.hash = "" → verify_file fs fi = .ok true) ∧
    (∀ (fs : FS) (fi : FileInfo) (d : String), alookup fs fi.path = some (.file d) →
      ¬ fi.hash = "" → verify_file fs fi = .ok (decide (d = fi.hash))) ∧
    (∀ (fs : FS) (fi : FileInfo) (rest : List FileInfo),
      verify_file fs fi = .ok false → verifyAllFiles fs (fi :: rest) = .ok false) ∧
    (∀ (fs : FS) (files : List FileInfo),
      verifyAllFiles fs files = .ok true ↔ ∀ fi ∈ files, verify_file fs fi = .ok true) := by
  refine ⟨?_, ?_, ?_, ?_, ?_⟩
  · intro fs fi h; simp [verify_file, h]
  · intro fs fi e h hh; simp [verify_file, h, hh]
  · intro fs fi d h hh; simp [verify_file, calculate_file_hash, h, hh]
  · intro fs fi rest h; simp [verifyAllFiles, h]
  · intro fs files
    induction files with
    | nil => simp [verifyAllFiles]
    | cons fi rest ih =>
      cases h : verify_file fs fi with
      | error e => simp [verifyAllFiles, h]
      | ok b => cases b <;> simp [verifyAllFiles, h, ih]

/-- Witness for C8 at a concrete filesystem and records. -/
theorem C8_verify_characterization_witness :
    verify_file [((["a"] : RelPath), FsEntry.file "h")] ⟨["b"], "x"⟩ = .ok false ∧
    verify_file [((["a"] : RelPath), FsEntry.file "h")] ⟨["a"], ""⟩ = .ok true ∧
    verifyAllFiles [((["a"] : RelPath), FsEntry.file "h")] [⟨["b"], "x"⟩] = .ok false :=
  ⟨C8_verify_characterization.1 _ ⟨["b"], "x"⟩ rfl,
   C8_verify_characterization.2.1 _ ⟨["a"], ""⟩ (FsEntry.file "h") rfl rfl,
   C8_verify_characterization.2.2.2.1 _ ⟨["b"], "x"⟩ []
     (C8_verify_characterization.1 _ ⟨["b"], "x"⟩ rfl)⟩

/-! Facts about the satisfied-skip path. -/

theorem pushCollectionId_files (m : WorkshopMetadata) (c : String) :
    (pushCollectionId m c).files = m.files := by
  unfold pushCollectionId; split <;> rfl

theorem pushCollectionId_changelog (m : WorkshopMetadata) (c : String) :
    (pushCollectionId m c).changelog_id = m.changelog_id := by
  unfold pushCollectionId; split <;> rfl

theorem pushCollectionId_mem (m : WorkshopMetadata) (c : String) :
    c ∈ (pushCollectionId m c).collection_ids := by
  unfold pushCollectionId
  split
  · assumption
  · simp

/-- quick_update on a state in which the record exists, the changelog marker
matches, and every file verifies, takes the skip path: it records the
membership, persists, and returns true. -/
theorem quick_update_skip (st : MgrState) (item : WorkshopItem) (cid : Option String)
    (m : WorkshopMetadata)
    (hm : alookup st.metadata item.id = some m)
    (hver : m.changelog_id = item.changelog_id)
    (hok : verifyAllFiles st.fs m.files = .ok true) :
    quick_update st item cid =
      ({ st with metadata := skipStore st.metadata item.id cid
                 persisted := skipStore st.metadata item.id cid }, .ok true) := by
  unfold quick_update skipStore
  rw [hm]
  simp [hver, hok]

/-- quick_update only mutates the state on the skip path: a false result
carries the input state through unchanged. -/
theorem quick_update_ok_false_eq {st st' : MgrState} {item : WorkshopItem}
    {cid : Option String} (hq : quick_update st item cid = (st', .ok false)) :
    st' = st := by
  unfold quick_update at hq
  split at hq
  · exact (congrArg Prod.fst hq).symm
  · split at hq
    · exact (congrArg Prod.fst hq).symm
    · split at hq
      · have := congrArg Prod.snd hq; simp at this
      · exact (congrArg Prod.fst hq).symm
      · have := congrArg Prod.snd hq; simp at this

/-! Claim C1: satisfied-skip and idempotence. -/

/-- C1: when a record exists for the item id, its changelog marker equals
the freshly resolved one, and every listed file verifies, a non-forced sync
(main.rs 646-656 and 297-333) returns success without invoking the transfer
agent, leaves the file list unchanged, records the supplied collection
membership if any, and persists the map; the resulting state satisfies the
same conditions again, so a second non-forced sync, under any configuration
and any transfer environment, also skips, and the agent is invoked zero
times across both calls (hence at most once for two consecutive syncs with
no upstream version change). -/
theorem C1_satisfied_skip_idempotent
    (cfg cfg2 : Cfg) (env env2 : Env) (st : MgrState) (item : WorkshopItem)
    (cid : Option String) (m : WorkshopMetadata)
    (hm : alookup st.metadata item.id = some m)
    (hver : m.changelog_id = item.changelog_id)
    (hok : verifyAllFiles st.fs m.files = .ok true) :
    ∃ st' m',
      download_item cfg env st item cid false = (st', .ok true) ∧
      st'.transfers = st.transfers ∧
      st'.fs = st.fs ∧
      alookup st'.metadata item.id = some m' ∧
      m'.files = m.files ∧
      m'.changelog_id = item.changelog_id ∧
      (∀ c, cid = some c → c ∈ m'.collection_ids) ∧
      st'.persisted = st'.metadata ∧
      (download_item cfg2 env2 st' item cid false).2 = .ok true ∧
      (download_item cfg2 env2 st' item cid false).1.transfers = st.transfers := by
  have hq := quick_update_skip st item cid m hm hver hok
  have hdl1 : download_item cfg env st item cid false =
      ({ st with metadata := skipStore st.metadata item.id cid
                 persisted := skipStore st.metadata item.id cid }, .ok true) := by
    simp [download_item, hq]
  have hm' : alookup (skipStore st.metadata item.id cid) item.id =
      some (skipRecord m cid) := by
    cases cid with
    | none => simpa [skipStore, skipRecord] using hm
    | some c => simp [skipStore, skipRecord, alookup_aadjust, hm]
  have hfiles : (skipRecord m cid).files = m.files := by
    cases cid <;> simp [skipRecord, pushCollectionId_files]
  have hch : (skipRecord m cid).changelog_id = item.changelog_id := by
    cases cid <;> simp [skipRecord, pushCollectionId_changelog, hver]
  have hq2 := quick_update_skip
      { st with metadata := skipStore st.metadata item.id cid
                persisted := skipStore st.metadata item.id cid }
      item cid (skipRecord m cid) hm' hch (by rw [hfiles]; exact hok)
  refine ⟨{ st with metadata := skipStore st.metadata item.id cid
                    persisted := skipStore st.metadata item.id cid },
          skipRecord m cid, hdl1, rfl, rfl, hm', hfiles, hch, ?_, rfl, ?_, ?_⟩
  · intro c hc
    subst hc
    simpa [skipRecord] using pushCollectionId_mem m c
  · simp [download_item, hq2]
  · simp [download_item, hq2]

/-- Witness for C1 at a concrete state: one tracked item with one intact
file, synced twice with a membership tag. -/
theorem C1_satisfied_skip_idempotent_witness :
    (download_item ⟨none, []⟩ ⟨true, none⟩
      ⟨[("1", ⟨"t", "c", [⟨["f"], "h"⟩], []⟩)], [("1", ⟨"t", "c", [⟨["f"], "h"⟩], []⟩)],
       [(["f"], FsEntry.file "h")], 0⟩ ⟨"1", "t", "c"⟩ (some "9") false).2 = .ok true ∧
    (download_item ⟨none, []⟩ ⟨true, none⟩
      ⟨[("1", ⟨"t", "c", [⟨["f"], "h"⟩], []⟩)], [("1", ⟨"t", "c", [⟨["f"], "h"⟩], []⟩)],
       [(["f"], FsEntry.file "h")], 0⟩ ⟨"1", "t", "c"⟩ (some "9") false).1.transfers = 0 := by
  obtain ⟨st', m', h1, h2, -, -, -, -, -, -, -, -⟩ :=
    C1_satisfied_skip_idempotent ⟨none, []⟩ ⟨none, []⟩ ⟨true, none⟩ ⟨true, none⟩
      ⟨[("1", ⟨"t", "c", [⟨["f"], "h"⟩], []⟩)], [("1", ⟨"t", "c", [⟨["f"], "h"⟩], []⟩)],
       [(["f"], FsEntry.file "h")], 0⟩ ⟨"1", "t", "c"⟩ (some "9")
      ⟨"t", "c", [⟨["f"], "h"⟩], []⟩ rfl rfl rfl
  constructor
  · rw [h1]
  · rw [h1]; exact h2

/-! Claim C5: transfer-step failures leave the store unchanged. -/

/-- C5: an item sync that reaches the transfer step (forced, or the
satisfied-skip declined) and then fails — the agent reports no success, or
its output directory is missing, or the ingest yields zero files — reports
failure (returns false) and leaves the metadata store untouched: both the
in-memory map and the persisted snapshot are exactly as before
(main.rs 668-690: every such path returns before any record is created,
updated, or saved). -/
theorem C5_transfer_failure_store_unchanged
    (cfg : Cfg) (env : Env) (st : MgrState) (item : WorkshopItem)
    (cid : Option String) (force : Bool)
    (hreach : force = true ∨ quick_update st item cid = (st, .ok false))
    (hfail : env.steamcmdOk = false ∨ env.sourceTree = none ∨
      (∃ ents, env.sourceTree = some ents ∧ move_and_track_files cfg (some ents) = [])) :
    (download_item cfg env st item cid force).2 = .ok false ∧
    (download_item cfg env st item cid force).1.metadata = st.metadata ∧
    (download_item cfg env st item cid force).1.persisted = st.persisted := by
  have hquick : (if force then (st, (.ok false : Except WmError Bool))
      else quick_update st item cid) = (st, .ok false) := by
    cases force with
    | false =>
      rcases hreach with hf | hq
      · exact absurd hf (by simp)
      · simpa using hq
    | true => rfl
  rcases hfail with h | h | h
  · simp [download_item, hquick, h]
  · cases hb : env.steamcmdOk <;> simp [download_item, hquick, h, hb]
  · obtain ⟨ents, hsrc, hempty⟩ := h
    cases hb : env.steamcmdOk <;>
      simp [download_item, hquick, hsrc, hb, hempty]

/-- Witness for C5: empty store (so the skip path declines), agent reports
failure. -/
theorem C5_transfer_failure_store_unchanged_witness :
    (download_item ⟨none, []⟩ ⟨false, none⟩ ⟨[], [], [], 0⟩
      ⟨"1", "t", "c"⟩ none false).2 = .ok false ∧
    (download_item ⟨none, []⟩ ⟨false, none⟩ ⟨[], [], [], 0⟩
      ⟨"1", "t", "c"⟩ none false).1.metadata = [] :=
  ⟨(C5_transfer_failure_store_unchanged ⟨none, []⟩ ⟨false, none⟩ ⟨[], [], [], 0⟩
      ⟨"1", "t", "c"⟩ none false (Or.inr rfl) (Or.inl rfl)).1,
   (C5_transfer_failure_store_unchanged ⟨none, []⟩ ⟨false, none⟩ ⟨[], [], [], 0⟩
      ⟨"1", "t", "c"⟩ none false (Or.inr rfl) (Or.inl rfl)).2.1⟩

/-! The ingest traversal: characterization lemmas. -/

theorem allowedFiles_nil (cfg : Cfg) (rd : RelPath) : allowedFiles cfg rd [] = [] := by
  simp [allowedFiles, entsFiles]

theorem allowedFiles_cons_file (cfg : Cfg) (rd : RelPath) (n : String) (d : String)
    (rest : Ents) :
    allowedFiles cfg rd ((n, .file d) :: rest) =
      (if is_allowed cfg (rd ++ [n]) then [⟨rd ++ [n], d⟩] else []) ++
        allowedFiles cfg rd rest := by
  simp only [allowedFiles, entsFiles, List.filter_cons]
  by_cases h : is_allowed cfg (rd ++ [n]) = true <;> simp [h]

theorem allowedFiles_shift (cfg : Cfg) (rd : RelPath) (n : String)
    (l : List (RelPath × String)) :
    ((l.map (fun pd => ((n :: pd.1 : RelPath), pd.2))).filter
        (fun pd => is_allowed cfg (rd ++ pd.1))).map
      (fun pd => (⟨rd ++ pd.1, pd.2⟩ : FileInfo)) =
    ((l.filter (fun pd => is_allowed cfg (rd ++ n :: pd.1))).map
      (fun pd => (⟨rd ++ n :: pd.1, pd.2⟩ : FileInfo))) := by
  induction l with
  | nil => rfl
  | cons pd rest ih =>
    simp only [List.map_cons, List.filter_cons]
    by_cases h : is_allowed cfg (rd ++ n :: pd.1) = true
    · simp [h, ih]
    · simp [h, ih]

theorem allowedFiles_cons_dir (cfg : Cfg) (rd : RelPath) (n : String) (es rest : Ents) :
    allowedFiles cfg rd ((n, .dir es) :: rest) =
      allowedFiles cfg (rd ++ [n]) es ++ allowedFiles cfg rd rest := by
  simp only [allowedFiles, entsFiles, List.filter_append, List.map_append]
  congr 1
  rw [allowedFiles_shift]
  simp

/-- The traversal produces, up to order, the accumulator plus the accepted
files of every directory still on the work stack. -/
theorem moveLoop_perm (cfg : Cfg) :
    ∀ (stack : List (RelPath × Ents)) (acc : List FileInfo),
      List.Perm (moveLoop cfg stack acc) (acc ++ stackFiles cfg stack) := by
  intro stack acc
  induction stack, acc using moveLoop.induct cfg with
  | case1 acc => simp [moveLoop, stackFiles]
  | case2 rd stack acc ih =>
    simp only [moveLoop]
    refine ih.trans ?_
    simp [stackFiles, allowedFiles_nil]
  | case3 rd n d rest stack acc ih =>
    simp only [moveLoop]
    refine ih.trans ?_
    by_cases h : is_allowed cfg (rd ++ [n]) = true <;>
      simp [stackFiles, allowedFiles_cons_file, h, List.append_assoc]
  | case4 rd n es rest stack acc ih =>
    simp only [moveLoop]
    refine ih.trans ?_
    simp only [stackFiles, allowedFiles_cons_dir]
    refine List.Perm.append_left acc ?_
    have h1 : allowedFiles cfg rd rest ++ (allowedFiles cfg (rd ++ [n]) es ++ stackFiles cfg stack)
        = (allowedFiles cfg rd rest ++ allowedFiles cfg (rd ++ [n]) es) ++ stackFiles cfg stack := by
      rw [List.append_assoc]
    rw [h1]
    exact List.perm_append_comm.append_right _

/-! Claim C7: ingest moves exactly the whitelisted files. -/

/-- C7: ingest over a present source tree returns exactly the regular files
whose relative path the configured inclusion policy accepts (with their
source digests); a rejected file is never among the moved (and hence
source-deleted) files, so it stays at its original source location; and
with no whitelist configured the policy rejects every path, so ingest over
any source tree (main.rs 188-198, 430-486) yields zero tracked files. -/
theorem C7_ingest_policy (cfg : Cfg) (ents : Ents) :
    (∀ (fp : RelPath) (fh : String),
      (⟨fp, fh⟩ : FileInfo) ∈ move_and_track_files cfg (some ents) ↔
        ((fp, fh) ∈ entsFiles ents ∧ is_allowed cfg fp = true)) ∧
    (∀ pd ∈ entsFiles ents, is_allowed cfg pd.1 = false →
      ∀ fi ∈ move_and_track_files cfg (some ents), fi.path ≠ pd.1) ∧
    (cfg.whitelistMatch = none → ∀ src, move_and_track_files cfg src = []) := by
  have hmem : ∀ (fp : RelPath) (fh : String),
      (⟨fp, fh⟩ : FileInfo) ∈ move_and_track_files cfg (some ents) ↔
        ((fp, fh) ∈ entsFiles ents ∧ is_allowed cfg fp = true) := by
    intro fp fh
    simp only [move_and_track_files]
    rw [(moveLoop_perm cfg [([], ents)] []).mem_iff]
    simp only [List.nil_append, stackFiles, allowedFiles, List.append_nil,
      List.mem_map, List.mem_filter, FileInfo.mk.injEq]
    constructor
    · rintro ⟨⟨p1, p2⟩, ⟨hpd, hall⟩, hp1, hp2⟩
      dsimp at hp1 hp2 hall
      subst hp1
      subst hp2
      exact ⟨hpd, by simpa using hall⟩
    · intro h
      exact ⟨(fp, fh), ⟨h.1, by simpa using h.2⟩, by simp⟩
  have hrej : ∀ pd ∈ entsFiles ents, is_allowed cfg pd.1 = false →
      ∀ fi ∈ move_and_track_files cfg (some ents), fi.path ≠ pd.1 := by
    intro pd hpd hno fi hfi heq
    obtain ⟨fp, fh⟩ := fi
    rw [hmem fp fh] at hfi
    dsimp at heq
    rw [heq] at hfi
    rw [hno] at hfi
    cases hfi.2
  have hnone : cfg.whitelistMatch = none → ∀ src, move_and_track_files cfg src = [] := by
    intro hw src
    cases src with
    | none => rfl
    | some es =>
      have hall : ∀ (rd : RelPath) (es2 : Ents), allowedFiles cfg rd es2 = [] := by
        intro rd es2
        simp [allowedFiles, is_allowed, hw]
      have hp := moveLoop_perm cfg [([], es)] []
      simp only [move_and_track_files]
      exact List.Perm.eq_nil (by simpa [stackFiles, hall] using hp)
  exact ⟨hmem, hrej, hnone⟩

/-- Witness for C7: whitelist accepting exactly map.bsp over a source tree
holding map.bsp and readme.txt yields exactly the one tracked file, and the
same tree with no whitelist yields none. -/
theorem C7_ingest_policy_witness :
    (⟨["map.bsp"], "d1"⟩ : FileInfo) ∈
      move_and_track_files ⟨some (fun p => decide (p = ["map.bsp"])), []⟩
        (some [("map.bsp", SrcTree.file "d1"), ("readme.txt", SrcTree.file "d2")]) ∧
    move_and_track_files ⟨some (fun p => decide (p = ["map.bsp"])), []⟩
        (some [("map.bsp", SrcTree.file "d1"), ("readme.txt", SrcTree.file "d2")]) =
      [⟨["map.bsp"], "d1"⟩] ∧
    move_and_track_files ⟨none, []⟩
        (some [("map.bsp", SrcTree.file "d1"), ("readme.txt", SrcTree.file "d2")]) = [] := by
  refine ⟨?_, ?_, ?_⟩
  · exact ((C7_ingest_policy ⟨some (fun p => decide (p = ["map.bsp"])), []⟩
        [("map.bsp", SrcTree.file "d1"), ("readme.txt", SrcTree.file "d2")]).1
        ["map.bsp"] "d1").mpr
      ⟨by simp [entsFiles], by simp [is_allowed, List.isPrefixOf]⟩
  · simp [move_and_track_files, moveLoop, is_allowed, List.isPrefixOf, entsFiles]
  · exact (C7_ingest_policy ⟨none, []⟩
      [("map.bsp", SrcTree.file "d1"), ("readme.txt", SrcTree.file "d2")]).2.2 rfl _

/-! Removal: helper lemmas. -/

theorem isPrefixOf_self (l : RelPath) : l.isPrefixOf l = true :=
  List.isPrefixOf_iff_prefix.mpr (List.prefix_refl l)

theorem ne_of_isPrefixOf_false {q p : RelPath} (h : q.isPrefixOf p = false) : q ≠ p := by
  intro heq
  subst heq
  rw [isPrefixOf_self] at h
  cases h

theorem noOverlap_elim {p q : RelPath} (h : noOverlap p q = true) :
    p.isPrefixOf q = false ∧ q.isPrefixOf p = false := by
  unfold noOverlap at h
  constructor
  · cases h1 : p.isPrefixOf q
    · rfl
    · rw [h1] at h; simp at h
  · cases h2 : q.isPrefixOf p
    · rfl
    · rw [h2] at h; simp at h

theorem independent_mem_split :
    ∀ (xs ys : List RelPath), independentB (xs ++ ys) = true →
      ∀ x ∈ xs, ∀ y ∈ ys, noOverlap x y = true := by
  intro xs
  induction xs with
  | nil => intro ys _ x hx; cases hx
  | cons x0 rest ih =>
    intro ys h x hx y hy
    rw [List.cons_append, independentB] at h
    rw [Bool.and_eq_true] at h
    rcases List.mem_cons.mp hx with rfl | hx'
    · have := List.all_eq_true.mp h.1 y (List.mem_append_right rest hy)
      simpa using this
    · exact ih ys h.2 x hx' y hy

theorem independent_sub_append (xs ys : List RelPath) (h : independentB (xs ++ ys) = true) :
    independentB ys = true := by
  induction xs with
  | nil => simpa using h
  | cons x0 rest ih =>
    rw [List.cons_append, independentB, Bool.and_eq_true] at h
    exact ih h.2

theorem verify_file_of_file {fs : FS} {fi : FileInfo} {d : String}
    (h : alookup fs fi.path = some (.file d)) (hh : ¬ fi.hash = "") :
    verify_file fs fi = .ok (decide (d = fi.hash)) := by
  simp [verify_file, calculate_file_hash, h, hh]

theorem deleteFsEntry_lookup_of_no_cover {fs : FS} {q : RelPath} {entry : FsEntry}
    {p : RelPath} (h : q.isPrefixOf p = false) :
    alookup (deleteFsEntry fs q entry) p = alookup fs p := by
  cases entry with
  | dir =>
    rw [deleteFsEntry, alookup_filterKey fs (fun k => !q.isPrefixOf k) p]
    simp [h]
  | file d =>
    rw [deleteFsEntry, alookup_aerase]
    have : ¬ p = q := fun heq => ne_of_isPrefixOf_false h heq.symm
    simp [this]

theorem deleteFsEntry_lookup_or {fs : FS} {q : RelPath} {entry : FsEntry} (p : RelPath) :
    alookup (deleteFsEntry fs q entry) p = alookup fs p ∨
      alookup (deleteFsEntry fs q entry) p = none := by
  cases entry with
  | dir =>
    rw [deleteFsEntry, alookup_filterKey fs (fun k => !q.isPrefixOf k) p]
    by_cases h : (!q.isPrefixOf p) = true <;> simp [h]
  | file d =>
    rw [deleteFsEntry, alookup_aerase]
    by_cases h : p = q <;> simp [h]

theorem deleteFsEntry_lookup_self {fs : FS} {q : RelPath} (entry : FsEntry) :
    alookup (deleteFsEntry fs q entry) q = none := by
  cases entry with
  | dir =>
    rw [deleteFsEntry, alookup_filterKey fs (fun k => !q.isPrefixOf k) q]
    simp [isPrefixOf_self]
  | file d =>
    rw [deleteFsEntry, alookup_aerase]
    simp

/-! The per-file removal loop: invariants. -/

theorem removeFilesLoop_store (flt : RelPath → Bool) :
    ∀ (files : List FileInfo) (st : MgrState) (n : Nat),
      (removeFilesLoop flt st files n).1.metadata = st.metadata ∧
      (removeFilesLoop flt st files n).1.persisted = st.persisted := by
  intro files
  induction files with
  | nil => intro st n; exact ⟨rfl, rfl⟩
  | cons fi rest ih =>
    intro st n
    simp only [removeFilesLoop]
    cases h1 : alookup st.fs fi.path with
    | none => simp only [h1]; exact ih st n
    | some entry =>
      simp only [h1]
      cases h2 : (if fi.hash = "" then (Except.ok true : Except WmError Bool)
          else verify_file st.fs fi) with
      | error e => simp [h2]
      | ok b =>
        cases b with
        | false => simp only [h2]; exact ih st n
        | true =>
          simp only [h2]
          by_cases h3 : flt fi.path = true
          · rw [if_pos h3]; exact ⟨rfl, rfl⟩
          · rw [if_neg h3]; exact ih _ _

theorem removeFilesLoop_fs_or (flt : RelPath → Bool) :
    ∀ (files : List FileInfo) (st : MgrState) (n : Nat) (p : RelPath),
      alookup (removeFilesLoop flt st files n).1.fs p = alookup st.fs p ∨
      alookup (removeFilesLoop flt st files n).1.fs p = none := by
  intro files
  induction files with
  | nil => intro st n p; exact Or.inl rfl
  | cons fi rest ih =>
    intro st n p
    simp only [removeFilesLoop]
    cases h1 : alookup st.fs fi.path with
    | none => simp only [h1]; exact ih st n p
    | some entry =>
      simp only [h1]
      cases h2 : (if fi.hash = "" then (Except.ok true : Except WmError Bool)
          else verify_file st.fs fi) with
      | error e => simp [h2]
      | ok b =>
        cases b with
        | false => simp only [h2]; exact ih st n p
        | true =>
          simp only [h2]
          by_cases h3 : flt fi.path = true
          · rw [if_pos h3]; exact Or.inl rfl
          · rw [if_neg h3]
            rcases ih { st with fs := deleteFsEntry st.fs fi.path entry } (n + 1) p with h | h
            · rcases @deleteFsEntry_lookup_or st.fs fi.path entry p with
                h4 | h4
              · exact Or.inl (h.trans h4)
              · exact Or.inr (h.trans h4)
            · exact Or.inr h

theorem removeFilesLoop_survive (flt : RelPath → Bool) :
    ∀ (files : List FileInfo) (st : MgrState) (n : Nat) (p : RelPath),
      (∀ fj ∈ files, fj.path.isPrefixOf p = false) →
      alookup (removeFilesLoop flt st files n).1.fs p = alookup st.fs p := by
  intro files
  induction files with
  | nil => intro st n p _; rfl
  | cons fi rest ih =>
    intro st n p hcov
    simp only [removeFilesLoop]
    cases h1 : alookup st.fs fi.path with
    | none =>
      simp only [h1]
      exact ih st n p (fun fj hj => hcov fj (List.mem_cons_of_mem fi hj))
    | some entry =>
      simp only [h1]
      cases h2 : (if fi.hash = "" then (Except.ok true : Except WmError Bool)
          else verify_file st.fs fi) with
      | error e => simp [h2]
      | ok b =>
        cases b with
        | false =>
          simp only [h2]
          exact ih st n p (fun fj hj => hcov fj (List.mem_cons_of_mem fi hj))
        | true =>
          simp only [h2]
          by_cases h3 : flt fi.path = true
          · rw [if_pos h3]
          · rw [if_neg h3]
            rw [ih _ _ p (fun fj hj => hcov fj (List.mem_cons_of_mem fi hj))]
            exact deleteFsEntry_lookup_of_no_cover (hcov fi (List.mem_cons_self fi rest))

theorem removeFilesLoop_append (flt : RelPath → Bool) :
    ∀ (as bs : List FileInfo) (st : MgrState) (n : Nat),
      removeFilesLoop flt st (as ++ bs) n =
        match removeFilesLoop flt st as n with
        | (st1, .ok n1) => removeFilesLoop flt st1 bs n1
        | (st1, .error e) => (st1, .error e) := by
  intro as
  induction as with
  | nil => intro bs st n; rfl
  | cons fi rest ih =>
    intro bs st n
    rw [List.cons_append]
    simp only [removeFilesLoop]
    cases h1 : alookup st.fs fi.path with
    | none => simp only [h1]; exact ih bs st n
    | some entry =>
      simp only [h1]
      cases h2 : (if fi.hash = "" then (Except.ok true : Except WmError Bool)
          else verify_file st.fs fi) with
      | error e => simp only [h2]
      | ok b =>
        cases b with
        | false => simp only [h2]; exact ih bs st n
        | true =>
          simp only [h2]
          by_cases h3 : flt fi.path = true
          · rw [if_pos h3, if_pos h3]
          · rw [if_neg h3, if_neg h3]
            exact ih bs _ _

theorem removeFilesLoop_ok (flt : RelPath → Bool) :
    ∀ (files : List FileInfo) (st : MgrState) (n : Nat),
      (∀ fi ∈ files, flt fi.path = false) →
      (∀ fi ∈ files, ¬ fi.hash = "" → alookup st.fs fi.path ≠ some FsEntry.dir) →
      ∃ st' n', removeFilesLoop flt st files n = (st', .ok n') := by
  intro files
  induction files with
  | nil => intro st n _ _; exact ⟨st, n, rfl⟩
  | cons fi rest ih =>
    intro st n hflt hsafe
    have hfltr : ∀ fj ∈ rest, flt fj.path = false :=
      fun fj hj => hflt fj (List.mem_cons_of_mem fi hj)
    have hsafer : ∀ (fs2 : FS),
        (∀ p, alookup fs2 p = alookup st.fs p ∨ alookup fs2 p = none) →
        ∀ fj ∈ rest, ¬ fj.hash = "" → alookup fs2 fj.path ≠ some FsEntry.dir := by
      intro fs2 hle fj hj hne
      rcases hle fj.path with h4 | h4
      · rw [h4]; exact hsafe fj (List.mem_cons_of_mem fi hj) hne
      · rw [h4]; simp
    simp only [removeFilesLoop]
    cases h1 : alookup st.fs fi.path with
    | none =>
      simp only [h1]
      exact ih st n hfltr (hsafer st.fs (fun p => Or.inl rfl))
    | some entry =>
      simp only [h1]
      by_cases hh : fi.hash = ""
      · rw [if_pos hh]
        rw [if_neg (by rw [hflt fi (List.mem_cons_self fi rest)]; simp)]
        exact ih _ _ hfltr
          (hsafer _ (fun p => @deleteFsEntry_lookup_or st.fs fi.path entry p))
      · cases entry with
        | dir => exact absurd h1 (hsafe fi (List.mem_cons_self fi rest) hh)
        | file d =>
          have hv := @verify_file_of_file st.fs fi d h1 hh
          rw [if_neg hh, hv]
          by_cases hd : d = fi.hash
          · rw [show (decide (d = fi.hash)) = true by simp [hd]]
            rw [if_neg (by rw [hflt fi (List.mem_cons_self fi rest)]; simp)]
            exact ih _ _ hfltr
              (hsafer _ (fun p => @deleteFsEntry_lookup_or st.fs fi.path (FsEntry.file d) p))
          · simp only [decide_eq_false hd]
            exact ih st n hfltr (hsafer st.fs (fun p => Or.inl rfl))

theorem removeFilesLoop_error (flt : RelPath → Bool) :
    ∀ (files : List FileInfo) (st : MgrState) (n : Nat) (st' : MgrState) (e : WmError),
      removeFilesLoop flt st files n = (st', .error e) →
      ∃ pre fi post n1, files = pre ++ fi :: post ∧
        removeFilesLoop flt st pre n = (st', .ok n1) ∧
        (∃ entry, alookup st'.fs fi.path = some entry) := by
  intro files
  induction files with
  | nil =>
    intro st n st' e h
    exact absurd (congrArg Prod.snd h) (by simp [removeFilesLoop])
  | cons fi rest ih =>
    intro st n st' e h
    simp only [removeFilesLoop] at h
    cases h1 : alookup st.fs fi.path with
    | none =>
      simp only [h1] at h
      obtain ⟨pre, fj, post, n1, hsplit, hpre, hent⟩ := ih st n st' e h
      refine ⟨fi :: pre, fj, post, n1, by rw [hsplit, List.cons_append], ?_, hent⟩
      simp only [removeFilesLoop, h1]
      exact hpre
    | some entry =>
      simp only [h1] at h
      cases h2 : (if fi.hash = "" then (Except.ok true : Except WmError Bool)
          else verify_file st.fs fi) with
      | error e2 =>
        simp only [h2] at h
        have h3 : st = st' := congrArg Prod.fst h
        refine ⟨[], fi, rest, n, rfl, ?_, entry, h3 ▸ h1⟩
        simp only [removeFilesLoop]
        rw [h3]
      | ok b =>
        cases b with
        | false =>
          simp only [h2] at h
          obtain ⟨pre, fj, post, n1, hsplit, hpre, hent⟩ := ih st n st' e h
          refine ⟨fi :: pre, fj, post, n1, by rw [hsplit, List.cons_append], ?_, hent⟩
          simp only [removeFilesLoop, h1, h2]
          exact hpre
        | true =>
          simp only [h2] at h
          by_cases h3 : flt fi.path = true
          · rw [if_pos h3] at h
            have h4 : st = st' := congrArg Prod.fst h
            refine ⟨[], fi, rest, n, rfl, ?_, entry, h4 ▸ h1⟩
            simp only [removeFilesLoop]
            rw [h4]
          · rw [if_neg h3] at h
            obtain ⟨pre, fj, post, n1, hsplit, hpre, hent⟩ := ih _ _ st' e h
            refine ⟨fi :: pre, fj, post, n1, by rw [hsplit, List.cons_append], ?_, hent⟩
            simp only [removeFilesLoop, h1, h2]
            rw [if_neg h3]
            exact hpre

/-! Claim C10: removal persists the drop before deleting files. -/

/-- C10: remove_item (main.rs 488-525) drops the TrackedItem from the
in-memory map and persists that removal before attempting any file
deletion.  First part: whatever the outcome, the returned state has the map
and the persisted snapshot equal to the store without the id.  Second part:
when a filesystem error aborts the deletion loop on a record whose listed
paths do not overlap pairwise, the operation returns the error with the
record already absent from the persisted store, while the file the loop
stopped at (which was present on disk) and all later-listed files are
exactly as they were before the call. -/
theorem C10_remove_persists_before_deletion :
    (∀ (flt : RelPath → Bool) (st : MgrState) (id : String) (m : WorkshopMetadata),
      alookup st.metadata id = some m →
      (remove_item flt st id).1.metadata = aerase st.metadata id ∧
      (remove_item flt st id).1.persisted = aerase st.metadata id) ∧
    (∀ (flt : RelPath → Bool) (st st' : MgrState) (id : String) (m : WorkshopMetadata)
        (e : WmError),
      alookup st.metadata id = some m →
      independentB (m.files.map FileInfo.path) = true →
      remove_item flt st id = (st', .error e) →
      st'.metadata = aerase st.metadata id ∧
      st'.persisted = aerase st.metadata id ∧
      ∃ pre fi post, m.files = pre ++ fi :: post ∧
        alookup st'.fs fi.path = alookup st.fs fi.path ∧
        alookup st.fs fi.path ≠ none ∧
        (∀ fj ∈ post, alookup st'.fs fj.path = alookup st.fs fj.path)) := by
  constructor
  · intro flt st id m hm
    simp only [remove_item, hm]
    cases hl : removeFilesLoop flt
        { st with metadata := aerase st.metadata id, persisted := aerase st.metadata id }
        m.files 0 with
    | mk st1 r =>
      have hs := removeFilesLoop_store flt m.files
        { st with metadata := aerase st.metadata id, persisted := aerase st.metadata id } 0
      rw [hl] at hs
      cases r with
      | error e => exact hs
      | ok n' => exact hs
  · intro flt st st' id m e hm hind hrem
    simp only [remove_item, hm] at hrem
    cases hl : removeFilesLoop flt
        { st with metadata := aerase st.metadata id, persisted := aerase st.metadata id }
        m.files 0 with
    | mk st1 r =>
      rw [hl] at hrem
      cases r with
      | ok n' => exact absurd (congrArg Prod.snd hrem) (by simp)
      | error e2 =>
        have hst : st1 = st' := congrArg Prod.fst hrem
        subst hst
        have hs := removeFilesLoop_store flt m.files
          { st with metadata := aerase st.metadata id, persisted := aerase st.metadata id } 0
        rw [hl] at hs
        obtain ⟨pre, fi, post, n1, hsplit, hpre, entry, hent⟩ :=
          removeFilesLoop_error flt m.files
            { st with metadata := aerase st.metadata id, persisted := aerase st.metadata id }
            0 st1 e2 hl
        have hindsplit : ∀ fk ∈ pre, ∀ fj ∈ fi :: post, noOverlap fk.path fj.path = true := by
          intro fk hk fj hj
      
      
          rw [hsplit, List.map_append, List.map_cons] at hind
          exact independent_mem_split (pre.map FileInfo.path)
            (fi.path :: post.map FileInfo.path) hind fk.path
            (List.mem_map_of_mem FileInfo.path hk) fj.path
            (by
              rcases List.mem_cons.mp hj with rfl | hj'
              · exact List.mem_cons_self _ _
              · exact List.mem_cons_of_mem _ (List.mem_map_of_mem FileInfo.path hj'))
        have hsur : ∀ p, (∀ fk ∈ pre, fk.path.isPrefixOf p = false) →
            alookup st1.fs p = alookup st.fs p := by
          intro p hp
          have h5 := removeFilesLoop_survive flt pre
            { st with metadata := aerase st.metadata id, persisted := aerase st.metadata id }
            0 p hp
          rw [hpre] at h5
          exact h5
        have hfi : alookup st1.fs fi.path = alookup st.fs fi.path :=
          hsur fi.path (fun fk hk =>
            (noOverlap_elim (hindsplit fk hk fi (List.mem_cons_self fi post))).1)
        refine ⟨hs.1, hs.2, pre, fi, post, hsplit, hfi, ?_, ?_⟩
        · rw [← hfi, hent]; simp
        · intro fj hj
          exact hsur fj.path (fun fk hk =>
            (noOverlap_elim (hindsplit fk hk fj (List.mem_cons_of_mem fi hj))).1)

/-- Witness for C10: two existence-only files, deletion of the second one
faulting; the record is gone from the persisted store, the first file was
deleted, the second remains. -/
theorem C10_remove_persists_before_deletion_witness :
    (remove_item (fun p => decide (p = ["b"]))
      ⟨[("I", ⟨"t", "c", [⟨["a"], ""⟩, ⟨["b"], ""⟩], []⟩)],
       [("I", ⟨"t", "c", [⟨["a"], ""⟩, ⟨["b"], ""⟩], []⟩)],
       [(["a"], FsEntry.file "x"), (["b"], FsEntry.file "y")], 0⟩ "I").1.metadata = [] ∧
    (remove_item (fun p => decide (p = ["b"]))
      ⟨[("I", ⟨"t", "c", [⟨["a"], ""⟩, ⟨["b"], ""⟩], []⟩)],
       [("I", ⟨"t", "c", [⟨["a"], ""⟩, ⟨["b"], ""⟩], []⟩)],
       [(["a"], FsEntry.file "x"), (["b"], FsEntry.file "y")], 0⟩ "I").1.persisted = [] ∧
    (remove_item (fun p => decide (p = ["b"]))
      ⟨[("I", ⟨"t", "c", [⟨["a"], ""⟩, ⟨["b"], ""⟩], []⟩)],
       [("I", ⟨"t", "c", [⟨["a"], ""⟩, ⟨["b"], ""⟩], []⟩)],
       [(["a"], FsEntry.file "x"), (["b"], FsEntry.file "y")], 0⟩ "I").2 =
      .error .ioError ∧
    alookup (remove_item (fun p => decide (p = ["b"]))
      ⟨[("I", ⟨"t", "c", [⟨["a"], ""⟩, ⟨["b"], ""⟩], []⟩)],
       [("I", ⟨"t", "c", [⟨["a"], ""⟩, ⟨["b"], ""⟩], []⟩)],
       [(["a"], FsEntry.file "x"), (["b"], FsEntry.file "y")], 0⟩ "I").1.fs ["b"] =
      some (FsEntry.file "y") := by
  have h := C10_remove_persists_before_deletion.1 (fun p => decide (p = ["b"]))
    ⟨[("I", ⟨"t", "c", [⟨["a"], ""⟩, ⟨["b"], ""⟩], []⟩)],
     [("I", ⟨"t", "c", [⟨["a"], ""⟩, ⟨["b"], ""⟩], []⟩)],
     [(["a"], FsEntry.file "x"), (["b"], FsEntry.file "y")], 0⟩ "I"
    ⟨"t", "c", [⟨["a"], ""⟩, ⟨["b"], ""⟩], []⟩ rfl
  exact ⟨h.1, h.2, by rfl, by rfl⟩

/-! Claim C3: removal deletion policy. -/

theorem independent_decomp {files pre post : List FileInfo} {fi : FileInfo}
    (hind : independentB (files.map FileInfo.path) = true)
    (hsplit : files = pre ++ fi :: post) :
    (∀ fk ∈ pre, noOverlap fk.path fi.path = true) ∧
    (∀ fj ∈ post, noOverlap fi.path fj.path = true) := by
  subst hsplit
  rw [List.map_append, List.map_cons] at hind
  constructor
  · intro fk hk
    exact independent_mem_split _ _ hind fk.path
      (List.mem_map_of_mem FileInfo.path hk) fi.path (List.mem_cons_self _ _)
  · intro fj hj
    have hind2 : independentB ((pre.map FileInfo.path ++ [fi.path]) ++
        post.map FileInfo.path) = true := by
      rw [List.append_assoc]
      simpa using hind
    exact independent_mem_split _ _ hind2 fi.path
      (List.mem_append_right _ (by simp)) fj.path (List.mem_map_of_mem FileInfo.path hj)

/-- C3 amended: for a tracked record whose listed paths do not overlap
pairwise (the record-validity invariant: each relativePath identifies one
file, and ingest only records regular files), and none of whose listed
paths with a nonempty recorded digest currently denotes a directory,
removal (main.rs 488-525) completes without error; it never deletes a file
whose on-disk digest disagrees with the recorded nonempty digest (such a
file is skipped, with a diagnostic in the code), it skips files that are
already missing, it deletes every remaining listed file — recursively via
remove_dir_all when the path denotes a directory, which the code reaches
only for an empty recorded digest — it leaves unrelated paths untouched,
and it drops the TrackedItem from the store and persists, regardless of
how many files were actually deleted.  (A listed path that denotes a
directory while its recorded digest is nonempty would instead abort the
removal with an I/O error, as the counterexample shows.) -/
theorem C3_remove_item_deletion_policy
    (st : MgrState) (id : String) (m : WorkshopMetadata)
    (hm : alookup st.metadata id = some m)
    (hind : independentB (m.files.map FileInfo.path) = true)
    (hsafe : ∀ fi ∈ m.files, ¬ fi.hash = "" → alookup st.fs fi.path ≠ some FsEntry.dir) :
    ∃ st' b, remove_item noFault st id = (st', .ok b) ∧
      st'.metadata = aerase st.metadata id ∧
      st'.persisted = aerase st.metadata id ∧
      (∀ fi ∈ m.files, ∀ d, alookup st.fs fi.path = some (.file d) → ¬ fi.hash = "" →
        ¬ d = fi.hash → alookup st'.fs fi.path = some (.file d)) ∧
      (∀ fi ∈ m.files, ∀ en, alookup st.fs fi.path = some en →
        (fi.hash = "" ∨ en = .file fi.hash) → alookup st'.fs fi.path = none) ∧
      (∀ p, (∀ fi ∈ m.files, fi.path.isPrefixOf p = false) →
        alookup st'.fs p = alookup st.fs p) := by
  obtain ⟨st1, n', hl⟩ := removeFilesLoop_ok noFault m.files
    { st with metadata := aerase st.metadata id, persisted := aerase st.metadata id } 0
    (fun _ _ => rfl) hsafe
  have hs := removeFilesLoop_store noFault m.files
    { st with metadata := aerase st.metadata id, persisted := aerase st.metadata id } 0
  rw [hl] at hs
  have key : ∀ (pre : List FileInfo) (fi : FileInfo) (post : List FileInfo),
      m.files = pre ++ fi :: post →
      ∃ stp np, removeFilesLoop noFault
          { st with metadata := aerase st.metadata id, persisted := aerase st.metadata id }
          m.files 0 = removeFilesLoop noFault stp (fi :: post) np ∧
        alookup stp.fs fi.path = alookup st.fs fi.path ∧
        (∀ p, alookup stp.fs p = alookup st.fs p ∨ alookup stp.fs p = none) := by
    intro pre fi post hsplit
    have hsafep : ∀ fj ∈ pre, ¬ fj.hash = "" → alookup st.fs fj.path ≠ some FsEntry.dir :=
      fun fj hj => hsafe fj (hsplit ▸ List.mem_append_left _ hj)
    obtain ⟨stp, np, hlp⟩ := removeFilesLoop_ok noFault pre
      { st with metadata := aerase st.metadata id, persisted := aerase st.metadata id } 0
      (fun _ _ => rfl) hsafep
    have hcov : ∀ fk ∈ pre, fk.path.isPrefixOf fi.path = false := fun fk hk =>
      (noOverlap_elim ((independent_decomp hind hsplit).1 fk hk)).1
    refine ⟨stp, np, ?_, ?_, ?_⟩
    · rw [hsplit, removeFilesLoop_append noFault pre (fi :: post)
        { st with metadata := aerase st.metadata id, persisted := aerase st.metadata id } 0,
        hlp]
    · have h5 := removeFilesLoop_survive noFault pre
        { st with metadata := aerase st.metadata id, persisted := aerase st.metadata id }
        0 fi.path hcov
      rw [hlp] at h5
      exact h5
    · intro p
      have h5 := removeFilesLoop_fs_or noFault pre
        { st with metadata := aerase st.metadata id, persisted := aerase st.metadata id }
        0 p
      rw [hlp] at h5
      exact h5
  refine ⟨st1, decide (0 < n'), by simp only [remove_item, hm, hl], hs.1, hs.2, ?_, ?_, ?_⟩
  · intro fi hfi d hlook hne hmis
    obtain ⟨pre, post, hsplit⟩ := List.append_of_mem hfi
    obtain ⟨stp, np, hkey1, hkey2, hkey3⟩ := key pre fi post hsplit
    have combined : alookup stp.fs fi.path = some (.file d) := hkey2.trans hlook
    rw [hkey1] at hl
    have hv := @verify_file_of_file stp.fs fi d combined hne
    simp only [removeFilesLoop, combined, if_neg hne, hv, decide_eq_false hmis] at hl
    have h6 := removeFilesLoop_survive noFault post stp np fi.path (fun fj hj =>
      (noOverlap_elim ((independent_decomp hind hsplit).2 fj hj)).2)
    rw [hl] at h6
    exact h6.trans combined
  · intro fi hfi en hlook hok
    obtain ⟨pre, post, hsplit⟩ := List.append_of_mem hfi
    obtain ⟨stp, np, hkey1, hkey2, hkey3⟩ := key pre fi post hsplit
    have combined : alookup stp.fs fi.path = some en := hkey2.trans hlook
    rw [hkey1] at hl
    have hdel : removeFilesLoop noFault
        { stp with fs := deleteFsEntry stp.fs fi.path en } post (np + 1) =
        (st1, .ok n') := by
      rcases hok with hh | hh
      · simp only [removeFilesLoop, combined, if_pos hh, noFault] at hl
        simpa using hl
      · subst hh
        have hv := @verify_file_of_file stp.fs fi fi.hash combined
        by_cases hne : fi.hash = ""
        · simp only [removeFilesLoop, combined, if_pos hne, noFault] at hl
          simpa using hl
        · simp only [removeFilesLoop, combined, if_neg hne, hv hne,
            show (decide (fi.hash = fi.hash)) = true by simp] at hl
          simpa [noFault] using hl
    have h7 := removeFilesLoop_fs_or noFault post
      { stp with fs := deleteFsEntry stp.fs fi.path en } (np + 1) fi.path
    rw [hdel] at h7
    rcases h7 with h7 | h7
    · rw [h7]
      exact deleteFsEntry_lookup_self en
    · exact h7
  · intro p hp
    have h5 := removeFilesLoop_survive noFault m.files
      { st with metadata := aerase st.metadata id, persisted := aerase st.metadata id }
      0 p hp
    rw [hl] at h5
    exact h5

/-- C3 counterexample: a tracked path with a nonempty recorded digest that
currently denotes a directory makes remove_item fail with an I/O error
(hashing a directory fails), so the path is neither deleted (the claim
says remaining listed files are deleted, recursively for directories) nor
merely skipped with a diagnostic: the removal operation itself errors.
This refutes the claim as stated. -/
theorem C3_remove_item_counterexample :
    (remove_item noFault
      ⟨[("I", ⟨"t", "c", [⟨["p"], "h"⟩], []⟩)], [("I", ⟨"t", "c", [⟨["p"], "h"⟩], []⟩)],
       [(["p"], FsEntry.dir)], 0⟩ "I").2 = .error .ioError ∧
    alookup (remove_item noFault
      ⟨[("I", ⟨"t", "c", [⟨["p"], "h"⟩], []⟩)], [("I", ⟨"t", "c", [⟨["p"], "h"⟩], []⟩)],
       [(["p"], FsEntry.dir)], 0⟩ "I").1.fs ["p"] = some FsEntry.dir :=
  ⟨rfl, rfl⟩

/-- Witness for C3 amended: one mismatched file is retained, one
existence-only file is deleted, an unrelated path is untouched, and the
record is dropped from the persisted store. -/
theorem C3_remove_item_deletion_policy_witness :
    (remove_item noFault
      ⟨[("I", ⟨"t", "c", [⟨["keep"], "h"⟩, ⟨["del"], ""⟩, ⟨["gone"], "x"⟩], []⟩)],
       [("I", ⟨"t", "c", [⟨["keep"], "h"⟩, ⟨["del"], ""⟩, ⟨["gone"], "x"⟩], []⟩)],
       [(["keep"], FsEntry.file "other"), (["del"], FsEntry.file "y"),
        (["other"], FsEntry.file "z")], 0⟩ "I").1.persisted = [] ∧
    alookup (remove_item noFault
      ⟨[("I", ⟨"t", "c", [⟨["keep"], "h"⟩, ⟨["del"], ""⟩, ⟨["gone"], "x"⟩], []⟩)],
       [("I", ⟨"t", "c", [⟨["keep"], "h"⟩, ⟨["del"], ""⟩, ⟨["gone"], "x"⟩], []⟩)],
       [(["keep"], FsEntry.file "other"), (["del"], FsEntry.file "y"),
        (["other"], FsEntry.file "z")], 0⟩ "I").1.fs ["keep"] =
      some (FsEntry.file "other") ∧
    alookup (remove_item noFault
      ⟨[("I", ⟨"t", "c", [⟨["keep"], "h"⟩, ⟨["del"], ""⟩, ⟨["gone"], "x"⟩], []⟩)],
       [("I", ⟨"t", "c", [⟨["keep"], "h"⟩, ⟨["del"], ""⟩, ⟨["gone"], "x"⟩], []⟩)],
       [(["keep"], FsEntry.file "other"), (["del"], FsEntry.file "y"),
        (["other"], FsEntry.file "z")], 0⟩ "I").1.fs ["del"] = none ∧
    alookup (remove_item noFault
      ⟨[("I", ⟨"t", "c", [⟨["keep"], "h"⟩, ⟨["del"], ""⟩, ⟨["gone"], "x"⟩], []⟩)],
       [("I", ⟨"t", "c", [⟨["keep"], "h"⟩, ⟨["del"], ""⟩, ⟨["gone"], "x"⟩], []⟩)],
       [(["keep"], FsEntry.file "other"), (["del"], FsEntry.file "y"),
        (["other"], FsEntry.file "z")], 0⟩ "I").1.fs ["other"] =
      some (FsEntry.file "z") := by
  obtain ⟨st', b, hrm, hmeta, hpers, hret, hdel, hsur⟩ :=
    C3_remove_item_deletion_policy
      ⟨[("I", ⟨"t", "c", [⟨["keep"], "h"⟩, ⟨["del"], ""⟩, ⟨["gone"], "x"⟩], []⟩)],
       [("I", ⟨"t", "c", [⟨["keep"], "h"⟩, ⟨["del"], ""⟩, ⟨["gone"], "x"⟩], []⟩)],
       [(["keep"], FsEntry.file "other"), (["del"], FsEntry.file "y"),
        (["other"], FsEntry.file "z")], 0⟩ "I"
      ⟨"t", "c", [⟨["keep"], "h"⟩, ⟨["del"], ""⟩, ⟨["gone"], "x"⟩], []⟩
      rfl (by decide) (by decide)
  rw [hrm]
  exact ⟨hpers,
    hret ⟨["keep"], "h"⟩ (by simp) "other" rfl (by decide) (by decide),
    hdel ⟨["del"], ""⟩ (by simp) (FsEntry.file "y") rfl (Or.inl rfl),
    hsur ["other"] (by decide)⟩

/-! Claim C4: the orphan sweep.  Store-key helper lemmas. -/

theorem aerase_map_fst_sublist {κ α : Type} [DecidableEq κ] (l : List (κ × α)) (k : κ) :
    ((aerase l k).map Prod.fst).Sublist (l.map Prod.fst) := by
  induction l with
  | nil => simp [aerase]
  | cons e rest ih =>
    by_cases h : e.1 = k
    · simp only [aerase, if_pos h, List.map_cons]
      exact ih.cons e.1
    · simp only [aerase, if_neg h, List.map_cons]
      exact ih.cons₂ e.1

theorem alookup_of_mem_nodup {κ α : Type} [DecidableEq κ] {l : List (κ × α)} {k : κ}
    {v : α} (hmem : (k, v) ∈ l) (hnd : (l.map Prod.fst).Nodup) : alookup l k = some v := by
  induction l with
  | nil => cases hmem
  | cons e rest ih =>
    rw [List.map_cons, List.nodup_cons] at hnd
    rcases List.mem_cons.mp hmem with rfl | hmem'
    · simp [alookup]
    · have hk : k ∈ rest.map Prod.fst := List.mem_map_of_mem Prod.fst hmem'
      have hne : ¬ e.1 = k := fun he => hnd.1 (he ▸ hk)
      rw [alookup, if_neg hne]
      exact ih hmem' hnd.2

theorem mem_of_alookup {κ α : Type} [DecidableEq κ] {l : List (κ × α)} {k : κ} {v : α}
    (h : alookup l k = some v) : (k, v) ∈ l := by
  induction l with
  | nil => cases h
  | cons e rest ih =>
    rw [alookup] at h
    by_cases he : e.1 = k
    · rw [if_pos he] at h
      have hv : e.2 = v := Option.some.inj h
      have hkv : (k, v) = e := by
        obtain ⟨e1, e2⟩ := e
        dsimp at he hv
        rw [he, hv]
      rw [hkv]
      exact List.mem_cons_self e rest
    · rw [if_neg he] at h
      exact List.mem_cons_of_mem e (ih h)

theorem orphan_cond_iff (l : List String) (id : String) :
    (l.length == 1 && l.getD 0 "" == id) = true ↔ l = [id] := by
  cases l with
  | nil => simp
  | cons c rest =>
    cases rest with
    | nil => simp [List.getD]
    | cons c2 rest2 => simp

theorem mem_orphanTargets {md : Store} {id k : String}
    (hnd : (md.map Prod.fst).Nodup) :
    k ∈ orphanTargets md id ↔
      ∃ mm, alookup md k = some mm ∧ mm.collection_ids = [id] := by
  unfold orphanTargets
  rw [List.mem_map]
  constructor
  · rintro ⟨⟨k1, mm⟩, hmem, rfl⟩
    rw [List.mem_filter] at hmem
    refine ⟨mm, alookup_of_mem_nodup hmem.1 hnd, ?_⟩
    exact (orphan_cond_iff mm.collection_ids id).mp hmem.2
  · rintro ⟨mm, hlook, hcid⟩
    refine ⟨(k, mm), ?_, rfl⟩
    rw [List.mem_filter]
    exact ⟨mem_of_alookup hlook, (orphan_cond_iff mm.collection_ids id).mpr hcid⟩

theorem orphanTargets_sublist (md : Store) (id : String) :
    (orphanTargets md id).Sublist (md.map Prod.fst) := by
  unfold orphanTargets
  exact (List.filter_sublist md).map Prod.fst

theorem remove_item_ok (st : MgrState) (id : String) (m : WorkshopMetadata)
    (hm : alookup st.metadata id = some m)
    (hsafe : ∀ fi ∈ m.files, ¬ fi.hash = "" → alookup st.fs fi.path ≠ some FsEntry.dir) :
    ∃ st' b, remove_item noFault st id = (st', .ok b) ∧
      st'.metadata = aerase st.metadata id ∧
      st'.persisted = aerase st.metadata id ∧
      (∀ p, alookup st'.fs p = alookup st.fs p ∨ alookup st'.fs p = none) := by
  obtain ⟨st1, n', hl⟩ := removeFilesLoop_ok noFault m.files
    { st with metadata := aerase st.metadata id, persisted := aerase st.metadata id } 0
    (fun _ _ => rfl) hsafe
  have hs := removeFilesLoop_store noFault m.files
    { st with metadata := aerase st.metadata id, persisted := aerase st.metadata id } 0
  rw [hl] at hs
  refine ⟨st1, decide (0 < n'), by simp only [remove_item, hm, hl], hs.1, hs.2, ?_⟩
  intro p
  have h4 := removeFilesLoop_fs_or noFault m.files
    { st with metadata := aerase st.metadata id, persisted := aerase st.metadata id } 0 p
  rw [hl] at h4
  exact h4

theorem sweepLoop_ok :
    ∀ (ids : List String) (st : MgrState),
      ids.Nodup →
      (∀ k ∈ ids, ∃ mm, alookup st.metadata k = some mm) →
      (∀ k mm, alookup st.metadata k = some mm →
        ∀ fi ∈ mm.files, ¬ fi.hash = "" → alookup st.fs fi.path ≠ some FsEntry.dir) →
      ∃ st', sweepLoop noFault st ids = (st', .ok ()) ∧
        (∀ x, alookup st'.metadata x =
          if x ∈ ids then none else alookup st.metadata x) := by
  intro ids
  induction ids with
  | nil =>
    intro st _ _ _
    exact ⟨st, rfl, fun x => by simp⟩
  | cons k rest ih =>
    intro st hnd hpres hsafe
    obtain ⟨hknotin, hndrest⟩ := List.nodup_cons.mp hnd
    obtain ⟨mm, hmm⟩ := hpres k (List.mem_cons_self k rest)
    obtain ⟨st1, b, hrm, hmeta, hpers, hfs⟩ :=
      remove_item_ok st k mm hmm (hsafe k mm hmm)
    have hlook1 : ∀ x, alookup st1.metadata x =
        if x = k then none else alookup st.metadata x := by
      intro x
      rw [hmeta, alookup_aerase]
    have hpres' : ∀ x ∈ rest, ∃ mm2, alookup st1.metadata x = some mm2 := by
      intro x hx
      rw [hlook1 x, if_neg (fun hxk => hknotin (by rw [← hxk]; exact hx))]
      exact hpres x (List.mem_cons_of_mem k hx)
    have hsafe' : ∀ x mm2, alookup st1.metadata x = some mm2 →
        ∀ fi ∈ mm2.files, ¬ fi.hash = "" → alookup st1.fs fi.path ≠ some FsEntry.dir := by
      intro x mm2 hx fi hfi hne
      rw [hlook1 x] at hx
      by_cases hxk : x = k
      · rw [if_pos hxk] at hx; cases hx
      · rw [if_neg hxk] at hx
        rcases hfs fi.path with h4 | h4
        · rw [h4]; exact hsafe x mm2 hx fi hfi hne
        · rw [h4]; simp
    obtain ⟨st2, hsw, hform⟩ := ih st1 hndrest hpres' hsafe'
    refine ⟨st2, ?_, ?_⟩
    · simp only [sweepLoop, hrm]
      exact hsw
    · intro x
      rw [hform x, hlook1 x]
      by_cases h1 : x ∈ rest
      · simp [h1]
      · by_cases h2 : x = k <;> simp [h1, h2]

/-- C4 amended: after cmd_remove of an id over a store with unique keys
(and no tracked path that is a directory with nonempty recorded digest, so
that each removal is error-free), the id itself is gone, and among the
remaining items exactly those whose collection_ids list is the one-element
list holding that id are removed by the orphan sweep; every item whose
list has any other shape — containing another collection, empty, or
listing the removed id more than once — is retained unchanged
(main.rs 821-843: the sweep tests list length one and first element). -/
theorem C4_orphan_sweep
    (st : MgrState) (id : String)
    (hkeys : (st.metadata.map Prod.fst).Nodup)
    (hsafe : ∀ k mm, alookup st.metadata k = some mm →
      ∀ fi ∈ mm.files, ¬ fi.hash = "" → alookup st.fs fi.path ≠ some FsEntry.dir) :
    ∃ st', cmd_remove noFault st id = (st', .ok ()) ∧
      alookup st'.metadata id = none ∧
      (∀ k mm, ¬ k = id → alookup st.metadata k = some mm →
        (mm.collection_ids = [id] → alookup st'.metadata k = none) ∧
        (¬ mm.collection_ids = [id] → alookup st'.metadata k = some mm)) := by
  have hstep : ∃ st1, cmd_remove noFault st id =
      sweepLoop noFault st1 (orphanTargets st1.metadata id) ∧
      (∀ x, alookup st1.metadata x = if x = id then none else alookup st.metadata x) ∧
      (st1.metadata.map Prod.fst).Nodup ∧
      (∀ k mm, alookup st1.metadata k = some mm →
        ∀ fi ∈ mm.files, ¬ fi.hash = "" → alookup st1.fs fi.path ≠ some FsEntry.dir) := by
    cases hp : alookup st.metadata id with
    | none =>
      refine ⟨st, by simp [cmd_remove, hp], ?_, hkeys, hsafe⟩
      intro x
      by_cases hx : x = id
      · rw [if_pos hx, hx]; exact hp
      · rw [if_neg hx]
    | some m0 =>
      obtain ⟨st1, b, hrm, hmeta1, hpers1, hfs1⟩ :=
        remove_item_ok st id m0 hp (hsafe id m0 hp)
      have hlook1 : ∀ x, alookup st1.metadata x =
          if x = id then none else alookup st.metadata x := by
        intro x; rw [hmeta1, alookup_aerase]
      refine ⟨st1, by simp [cmd_remove, hp, hrm], hlook1, ?_, ?_⟩
      · rw [hmeta1]
        exact List.Nodup.sublist (aerase_map_fst_sublist st.metadata id) hkeys
      · intro k mm hk fi hfi hne
        rw [hlook1 k] at hk
        by_cases hkid : k = id
        · rw [if_pos hkid] at hk; cases hk
        · rw [if_neg hkid] at hk
          rcases hfs1 fi.path with h4 | h4
          · rw [h4]; exact hsafe k mm hk fi hfi hne
          · rw [h4]; simp
  obtain ⟨st1, hcmd, hlook1, hkeys1, hsafe1⟩ := hstep
  have hTnodup : (orphanTargets st1.metadata id).Nodup :=
    List.Nodup.sublist (orphanTargets_sublist st1.metadata id) hkeys1
  have hTpres : ∀ k ∈ orphanTargets st1.metadata id,
      ∃ mm, alookup st1.metadata k = some mm := by
    intro k hk
    obtain ⟨mm, hmm, -⟩ := (mem_orphanTargets hkeys1).mp hk
    exact ⟨mm, hmm⟩
  obtain ⟨st2, hsw, hform⟩ :=
    sweepLoop_ok (orphanTargets st1.metadata id) st1 hTnodup hTpres hsafe1
  refine ⟨st2, by rw [hcmd]; exact hsw, ?_, ?_⟩
  · rw [hform id]
    by_cases h1 : id ∈ orphanTargets st1.metadata id
    · rw [if_pos h1]
    · rw [if_neg h1, hlook1 id, if_pos rfl]
  · intro k mm hkid hk
    have hk1 : alookup st1.metadata k = some mm := by
      rw [hlook1 k, if_neg hkid]; exact hk
    constructor
    · intro hcid
      have hmemT : k ∈ orphanTargets st1.metadata id :=
        (mem_orphanTargets hkeys1).mpr ⟨mm, hk1, hcid⟩
      rw [hform k, if_pos hmemT]
    · intro hcid
      have hnotT : k ∉ orphanTargets st1.metadata id := by
        intro hmemT
        obtain ⟨mm2, hk2, hcid2⟩ := (mem_orphanTargets hkeys1).mp hmemT
        rw [hk1] at hk2
        refine hcid ?_
        rw [Option.some.inj hk2]
        exact hcid2
      rw [hform k, if_neg hnotT]
      exact hk1

/-- C4 counterexample: an item whose collection-membership set is exactly
the singleton of the removed id — every listed membership equals the id
and the list is nonempty, here the list is the id twice — is retained by
the orphan sweep, because the code tests list length equal to one rather than
the set of memberships.  This refutes the claim as stated, which demands
that exactly the items with membership set the singleton of the id be
removed. -/
theorem C4_orphan_sweep_counterexample :
    ("X" ∈ (["X", "X"] : List String)) ∧
    (["X", "X"] : List String).all (fun c => c == "X") = true ∧
    alookup (cmd_remove noFault
      ⟨[("A", ⟨"t", "c", [], ["X", "X"]⟩)], [("A", ⟨"t", "c", [], ["X", "X"]⟩)], [], 0⟩
      "X").1.metadata "A" = some ⟨"t", "c", [], ["X", "X"]⟩ :=
  ⟨by decide, by decide, rfl⟩

/-- Witness for C4 amended: removing collection X drops X, sweeps the item
whose membership list is exactly that singleton list, and retains both an
item with an extra membership and an item with no memberships. -/
theorem C4_orphan_sweep_witness :
    alookup (cmd_remove noFault
      ⟨[("X", ⟨"tx", "cx", [], []⟩), ("A", ⟨"ta", "ca", [], ["X"]⟩),
        ("B", ⟨"tb", "cb", [], ["X", "Y"]⟩), ("C", ⟨"tc", "cc", [], []⟩)],
       [("X", ⟨"tx", "cx", [], []⟩), ("A", ⟨"ta", "ca", [], ["X"]⟩),
        ("B", ⟨"tb", "cb", [], ["X", "Y"]⟩), ("C", ⟨"tc", "cc", [], []⟩)],
       [], 0⟩ "X").1.metadata "X" = none ∧
    alookup (cmd_remove noFault
      ⟨[("X", ⟨"tx", "cx", [], []⟩), ("A", ⟨"ta", "ca", [], ["X"]⟩),
        ("B", ⟨"tb", "cb", [], ["X", "Y"]⟩), ("C", ⟨"tc", "cc", [], []⟩)],
       [("X", ⟨"tx", "cx", [], []⟩), ("A", ⟨"ta", "ca", [], ["X"]⟩),
        ("B", ⟨"tb", "cb", [], ["X", "Y"]⟩), ("C", ⟨"tc", "cc", [], []⟩)],
       [], 0⟩ "X").1.metadata "A" = none ∧
    alookup (cmd_remove noFault
      ⟨[("X", ⟨"tx", "cx", [], []⟩), ("A", ⟨"ta", "ca", [], ["X"]⟩),
        ("B", ⟨"tb", "cb", [], ["X", "Y"]⟩), ("C", ⟨"tc", "cc", [], []⟩)],
       [("X", ⟨"tx", "cx", [], []⟩), ("A", ⟨"ta", "ca", [], ["X"]⟩),
        ("B", ⟨"tb", "cb", [], ["X", "Y"]⟩), ("C", ⟨"tc", "cc", [], []⟩)],
       [], 0⟩ "X").1.metadata "B" = some ⟨"tb", "cb", [], ["X", "Y"]⟩ ∧
    alookup (cmd_remove noFault
      ⟨[("X", ⟨"tx", "cx", [], []⟩), ("A", ⟨"ta", "ca", [], ["X"]⟩),
        ("B", ⟨"tb", "cb", [], ["X", "Y"]⟩), ("C", ⟨"tc", "cc", [], []⟩)],
       [("X", ⟨"tx", "cx", [], []⟩), ("A", ⟨"ta", "ca", [], ["X"]⟩),
        ("B", ⟨"tb", "cb", [], ["X", "Y"]⟩), ("C", ⟨"tc", "cc", [], []⟩)],
       [], 0⟩ "X").1.metadata "C" = some ⟨"tc", "cc", [], []⟩ := by
  obtain ⟨st', hcmd, hidnone, hstat⟩ :=
    C4_orphan_sweep
      ⟨[("X", ⟨"tx", "cx", [], []⟩), ("A", ⟨"ta", "ca", [], ["X"]⟩),
        ("B", ⟨"tb", "cb", [], ["X", "Y"]⟩), ("C", ⟨"tc", "cc", [], []⟩)],
       [("X", ⟨"tx", "cx", [], []⟩), ("A", ⟨"ta", "ca", [], ["X"]⟩),
        ("B", ⟨"tb", "cb", [], ["X", "Y"]⟩), ("C", ⟨"tc", "cc", [], []⟩)],
       [], 0⟩ "X" (by decide)
      (fun k mm hk fi hfi hne => by simp [alookup])
  rw [hcmd]
  exact ⟨hidnone,
    (hstat "A" ⟨"ta", "ca", [], ["X"]⟩ (by decide) rfl).1 rfl,
    (hstat "B" ⟨"tb", "cb", [], ["X", "Y"]⟩ (by decide) rfl).2 (by decide),
    (hstat "C" ⟨"tc", "cc", [], []⟩ (by decide) rfl).2 (by decide)⟩

/-! Claim C9: collection sync member handling. -/

/-- C9 amended: the collection sync (main.rs 719-743) iterates member ids
in order; a member that resolves as an item and whose item sync returns a
result — success or reported failure alike — hands its resulting state to
the processing of the remaining members, with no rollback and no early
stop; a member that resolves as a collection is skipped with the state
unchanged and is not recursed into; a member whose resolution fails aborts
the loop at once, leaving the remaining members unprocessed; and when
every member resolves and no item sync raises a hard error the collection
operation as a whole reports success, individual member failures
notwithstanding. -/
theorem C9_collection_member_handling :
    (∀ (cfg : Cfg) (R : String → Except WmError ParseResult) (E : String → Env)
        (cid : String) (force : Bool) (st st' : MgrState) (id : String)
        (rest : List String) (it : WorkshopItem) (b : Bool),
      R id = .ok (.item it) →
      download_item cfg (E id) st it (some cid) force = (st', .ok b) →
      dcLoop cfg R E cid force st (id :: rest) = dcLoop cfg R E cid force st' rest) ∧
    (∀ (cfg : Cfg) (R : String → Except WmError ParseResult) (E : String → Env)
        (cid : String) (force : Bool) (st : MgrState) (id : String)
        (rest : List String) (c : WorkshopCollection),
      R id = .ok (.collection c) →
      dcLoop cfg R E cid force st (id :: rest) = dcLoop cfg R E cid force st rest) ∧
    (∀ (cfg : Cfg) (R : String → Except WmError ParseResult) (E : String → Env)
        (cid : String) (force : Bool) (st : MgrState) (id : String)
        (rest : List String) (e : WmError),
      R id = .error e →
      dcLoop cfg R E cid force st (id :: rest) = (st, .error e)) ∧
    (∀ (cfg : Cfg) (R : String → Except WmError ParseResult) (E : String → Env)
        (cid : String) (force : Bool) (ids : List String) (st : MgrState),
      (∀ id ∈ ids, ∃ r, R id = .ok r) →
      (∀ id it st1, id ∈ ids → R id = .ok (.item it) →
        ∀ e, (download_item cfg (E id) st1 it (some cid) force).2 ≠ .error e) →
      (dcLoop cfg R E cid force st ids).2 = .ok ()) := by
  refine ⟨?_, ?_, ?_, ?_⟩
  · intro cfg R E cid force st st' id rest it b hR hdl
    simp only [dcLoop, hR, hdl]
  · intro cfg R E cid force st id rest c hR
    simp only [dcLoop, hR]
  · intro cfg R E cid force st id rest e hR
    simp only [dcLoop, hR]
  · intro cfg R E cid force ids
    induction ids with
    | nil => intro st _ _; rfl
    | cons id rest ih =>
      intro st hres hsync
      obtain ⟨r, hr⟩ := hres id (List.mem_cons_self id rest)
      cases r with
      | collection c =>
        simp only [dcLoop, hr]
        exact ih st (fun x hx => hres x (List.mem_cons_of_mem id hx))
          (fun x itx st1 hx => hsync x itx st1 (List.mem_cons_of_mem id hx))
      | item it =>
        simp only [dcLoop, hr]
        cases hd : download_item cfg (E id) st it (some cid) force with
        | mk st2 r2 =>
          cases r2 with
          | error e =>
            exact absurd (congrArg Prod.snd hd)
              (hsync id it st (List.mem_cons_self id rest) hr e)
          | ok b =>
            simp only [hd]
            exact ih st2 (fun x hx => hres x (List.mem_cons_of_mem id hx))
              (fun x itx st1 hx => hsync x itx st1 (List.mem_cons_of_mem id hx))

/-- C9 counterexample: member a of collection c fails to resolve while
member b resolves as an item needing transfer; processed alone, b invokes
the transfer agent once, but in the collection [a, b] the resolution
failure of a aborts the loop with the state untouched, so b is never
processed — a failing member does prevent processing of the other members,
refuting the claim as stated; nor is any aggregate set of failed ids
returned (the operation result carries no ids at all). -/
theorem C9_collection_member_handling_counterexample :
    download_collection ⟨none, []⟩
      (fun s => if s = "b" then .ok (.item ⟨"b", "tb", "cb"⟩)
        else .error .resolutionError)
      (fun _ => ⟨false, none⟩) ⟨[], [], [], 0⟩ ⟨"c", "t", ["a", "b"]⟩ false =
      (⟨[], [], [], 0⟩, .error .resolutionError) ∧
    (download_collection ⟨none, []⟩
      (fun s => if s = "b" then .ok (.item ⟨"b", "tb", "cb"⟩)
        else .error .resolutionError)
      (fun _ => ⟨false, none⟩) ⟨[], [], [], 0⟩ ⟨"c", "t", ["b"]⟩ false).1.transfers = 1 ∧
    (download_collection ⟨none, []⟩
      (fun s => if s = "b" then .ok (.item ⟨"b", "tb", "cb"⟩)
        else .error .resolutionError)
      (fun _ => ⟨false, none⟩) ⟨[], [], [], 0⟩ ⟨"c", "t", ["a", "b"]⟩ false).1.transfers =
      0 :=
  ⟨rfl, rfl, rfl⟩

/-- Witness for C9 amended: a member whose item sync reports failure hands
its state (with the transfer counted) to the rest of the loop, and a
resolution failure aborts with the state unchanged. -/
theorem C9_collection_member_handling_witness :
    dcLoop ⟨none, []⟩
      (fun s => if s = "b" then .ok (.item ⟨"b", "tb", "cb"⟩)
        else .error .resolutionError)
      (fun _ => ⟨false, none⟩) "c" false ⟨[], [], [], 0⟩ ["b", "z"] =
      dcLoop ⟨none, []⟩
        (fun s => if s = "b" then .ok (.item ⟨"b", "tb", "cb"⟩)
          else .error .resolutionError)
        (fun _ => ⟨false, none⟩) "c" false ⟨[], [], [], 1⟩ ["z"] ∧
    dcLoop ⟨none, []⟩
      (fun s => if s = "b" then .ok (.item ⟨"b", "tb", "cb"⟩)
        else .error .resolutionError)
      (fun _ => ⟨false, none⟩) "c" false ⟨[], [], [], 0⟩ ["a", "b"] =
      (⟨[], [], [], 0⟩, .error .resolutionError) :=
  ⟨C9_collection_member_handling.1 ⟨none, []⟩
      (fun s => if s = "b" then .ok (.item ⟨"b", "tb", "cb"⟩)
        else .error .resolutionError)
      (fun _ => ⟨false, none⟩) "c" false ⟨[], [], [], 0⟩ ⟨[], [], [], 1⟩ "b" ["z"]
      ⟨"b", "tb", "cb"⟩ false rfl rfl,
   C9_collection_member_handling.2.2.1 ⟨none, []⟩
      (fun s => if s = "b" then .ok (.item ⟨"b", "tb", "cb"⟩)
        else .error .resolutionError)
      (fun _ => ⟨false, none⟩) "c" false ⟨[], [], [], 0⟩ "a" ["b"]
      .resolutionError rfl⟩
